import Mathlib

/-!
Verification of the SimBA station-electrification optimizer core
(src/ebus_toolbox/optimizer.py) against its natural-language specification.

Modelling conventions of the shallow embedding:
* Python floats are exact rationals (ℚ); NaN does not exist in this model,
  every function is total (partial operations return Option).
* Python lists and numpy 1-d arrays are Lean lists; numpy elementwise
  operations are spelled out on lists.
* Python sets of station names are Finset String; dicts are association
  lists or plain functions.
* datetimes are rationals counting minutes; timedeltas are rationals
  (minutes), so division by timedelta(minutes=1) is the identity.
* station names and vehicle ids are opaque atoms; they are modelled as
  natural numbers (an injective renaming of the Python strings), since the
  optimizer never inspects their text except where noted.
-/

set_option maxHeartbeats 1000000

/-- Python int() applied to a rational: truncation toward zero. -/
def int_trunc (q : ℚ) : ℤ := if 0 ≤ q then ⌊q⌋ else ⌈q⌉

/-- np.max of a list.  numpy raises on an empty array; the source only applies
it to nonempty SoC traces, we return 0 for []. -/
def np_max : List ℚ → ℚ
  | [] => 0
  | x :: xs => xs.foldl max x

/-! ### C3 — sanitization of unknown SoC entries (optimizer.py lines 241-249) -/

/-- Lines 244-247 of optimization_loop: scan the trace from the right and take
the first entry that is not None (= the last known value of the trace). -/
def last_not_none (soc : List (Option ℚ)) : Option ℚ :=
  (soc.reverse.filterMap id).head?

/-- Lines 241-249 of optimization_loop (per-vehicle body): if the trace
contains a None entry, replace every None entry by `last_not_none`; when the
whole trace is None the Python code raises NameError (modelled as none). -/
def fill_socs (soc : List (Option ℚ)) : Option (List ℚ) :=
  if soc.any (fun x => x.isNone) then
    match last_not_none soc with
    | some v => some (soc.map (fun x => x.getD v))
    | none => none
  else
    some (soc.map (fun x => x.getD 0))

theorem last_not_none_eq_getLast (soc : List (Option ℚ)) (h : soc.filterMap id ≠ []) :
    last_not_none soc = some ((soc.filterMap id).getLast h) := by
  unfold last_not_none
  rw [List.filterMap_reverse id soc, List.head?_reverse, List.getLast?_eq_getLast _ h]

/-- C3 counterexample: the sanitization pass does not back-propagate the
nearest later known value.  On the trace [None, 1, None, 2] it produces
[2, 1, 2, 2] (every unknown gets the last known value, 2), while the claim
demands [1, 1, 2, 2] (index 0 should get the next known value 1). -/
theorem C3_fill_socs_cex :
    fill_socs [none, some 1, none, some 2] = some [2, 1, 2, 2] ∧
      ([2, 1, 2, 2] : List ℚ) ≠ [1, 1, 2, 2] := by
  constructor
  · decide
  · decide

/-- C3 amended: when the trace has at least one known entry, every unknown
entry is replaced by the LAST known value of the whole trace (the known entry
with the greatest index), not by the nearest known value to the right; known
entries are preserved. -/
theorem fill_socs_last_known (soc : List (Option ℚ)) (h : soc.filterMap id ≠ []) :
    fill_socs soc = some (soc.map (fun x => x.getD ((soc.filterMap id).getLast h))) := by
  unfold fill_socs
  by_cases hn : soc.any (fun x => x.isNone)
  · rw [if_pos hn, last_not_none_eq_getLast soc h]
  · rw [if_neg hn]
    refine congrArg some (List.map_congr_left ?_)
    intro a ha
    have : ¬ a.isNone := by
      intro hne
      exact hn (List.any_eq_true.mpr ⟨a, ha, hne⟩)
    cases a with
    | none => simp at this
    | some y => rfl

/-- C3 witness: the amended theorem applied at the concrete trace. -/
theorem C3_fill_socs_witness :
    fill_socs [none, some 1, none, some 2] = some [2, 1, 2, 2] := by
  rw [fill_socs_last_known [none, some 1, none, some 2] (by decide)]
  decide

/-! ### C4 — get_delta_soc (optimizer.py lines 1128-1146) -/

/-- optimizer.py lines 1128-1146: expected soc lift for a start soc and a
standing time.  A numpy IndexError (no qualifying row) is modelled as none.
Note that the returned value subtracts the soc of the FOUND ROW
(`start_soc` in the source), not the argument soc. -/
def get_delta_soc (soc_over_time_curve : List (ℚ × ℚ)) (soc : ℚ) (time_delta : ℚ) :
    Option ℚ :=
  if time_delta = 0 then some 0
  else
    match soc_over_time_curve.find? (fun row => decide (max soc 0 ≤ row.2)) with
    | none => none
    | some first_row =>
      match soc_over_time_curve.getLast? with
      | none => none
      | some last_row =>
        if last_row.1 ≤ first_row.1 + time_delta then
          some (min 1 (1 - first_row.2))
        else
          match soc_over_time_curve.find? (fun row => decide (first_row.1 + time_delta ≤ row.1)) with
          | none => none
          | some row2 => some (min 1 (row2.2 - first_row.2))

/-- The formula of claim C4, word for word: t0 = time of the first row whose
soc ≥ max(soc0, 0); soc_at = table soc at t0 + Δt (clamped to 1.0 past the
last row); result = min(1, soc_at − soc0), subtracting the INPUT soc0. -/
def delta_soc_claimed (curve : List (ℚ × ℚ)) (soc0 : ℚ) (dt : ℚ) : Option ℚ :=
  if dt = 0 then some 0
  else
    match curve.find? (fun row => decide (max soc0 0 ≤ row.2)) with
    | none => none
    | some r1 =>
      match curve.getLast? with
      | none => none
      | some last_row =>
        let soc_at : ℚ :=
          if last_row.1 ≤ r1.1 + dt then 1
          else ((curve.find? (fun row => decide (r1.1 + dt ≤ row.1))).getD (0, 1)).2
        some (min 1 (soc_at - soc0))

/-- The claim C4 formula amended: identical except that the soc of the found
row r1 is subtracted instead of the input soc0 (matching the source's
`end_soc - start_soc`). -/
def delta_soc_amended (curve : List (ℚ × ℚ)) (soc0 : ℚ) (dt : ℚ) : Option ℚ :=
  if dt = 0 then some 0
  else
    match curve.find? (fun row => decide (max soc0 0 ≤ row.2)) with
    | none => none
    | some r1 =>
      match curve.getLast? with
      | none => none
      | some last_row =>
        let soc_at : ℚ :=
          if last_row.1 ≤ r1.1 + dt then 1
          else ((curve.find? (fun row => decide (r1.1 + dt ≤ row.1))).getD (0, 1)).2
        some (min 1 (soc_at - r1.2))

/-- C4 counterexample: on the table [(0,0),(10,0),(20,1)] with soc0 = −1
and Δt = 5, the code returns min(1, 0 − 0) = 0 (it subtracts the soc of the
first row with soc ≥ max(soc0,0), which is 0), while the claim's formula
min(1, soc_at − soc0) gives min(1, 0 − (−1)) = 1. -/
theorem C4_get_delta_soc_cex :
    get_delta_soc [(0, 0), (10, 0), (20, 1)] (-1) 5 = some 0 ∧
      delta_soc_claimed [(0, 0), (10, 0), (20, 1)] (-1) 5 = some 1 ∧
      some (0 : ℚ) ≠ some (1 : ℚ) := by
  refine ⟨by norm_num [get_delta_soc, List.find?],
    by norm_num [delta_soc_claimed, List.find?], by norm_num⟩

/-- C4 amended: for every table, start soc and duration, get_delta_soc returns
0 for Δt = 0 and otherwise min(1, soc_at − soc_row) where soc_row is the soc
of the first table row whose soc ≥ max(soc0, 0) and soc_at is the table soc
looked up at that row's time + Δt, clamped to 1.0 at or past the last row
(none when no qualifying row exists). -/
theorem get_delta_soc_eq_amended (curve : List (ℚ × ℚ)) (soc0 : ℚ) (dt : ℚ) :
    get_delta_soc curve soc0 dt = delta_soc_amended curve soc0 dt := by
  unfold get_delta_soc delta_soc_amended
  by_cases h0 : dt = 0
  · simp [h0]
  · rw [if_neg h0, if_neg h0]
    cases hf : curve.find? (fun row => decide (max soc0 0 ≤ row.2)) with
    | none => rfl
    | some r1 =>
      dsimp only
      cases hl : curve.getLast? with
      | none => rfl
      | some last_row =>
        dsimp only
        by_cases hc : last_row.1 ≤ r1.1 + dt
        · simp [hc]
        · rw [if_neg hc]
          have hmem : last_row ∈ curve := List.mem_of_mem_getLast? hl
          have hsome : (curve.find? (fun row => decide (r1.1 + dt ≤ row.1))).isSome := by
            rw [List.find?_isSome]
            exact ⟨last_row, hmem, by simp [le_of_lt (lt_of_not_le hc)]⟩
          cases hf2 : curve.find? (fun row => decide (r1.1 + dt ≤ row.1)) with
          | none => rw [hf2] at hsome; simp at hsome
          | some row2 => simp [hf2, hc]

/-! ### Sorted fingerprints (optimizer.py lines 778-779, stations_hash)

Python's stations_hash is `str(sorted(list(stations_set)))`.  The string
rendering is injective on sorted lists of names, so the fingerprint is
modelled as the sorted list itself.  Sorting is by insertion sort, which
agrees with Python's sorted() on values. -/

def insert_sorted (a : ℕ) : List ℕ → List ℕ
  | [] => [a]
  | b :: l => if a ≤ b then a :: b :: l else b :: insert_sorted a l

def sort_names : List ℕ → List ℕ
  | [] => []
  | a :: l => insert_sorted a (sort_names l)

theorem insert_sorted_perm (a : ℕ) (l : List ℕ) :
    List.Perm (insert_sorted a l) (a :: l) := by
  induction l with
  | nil => rfl
  | cons b t ih =>
    unfold insert_sorted
    by_cases h : a ≤ b
    · rw [if_pos h]
    · rw [if_neg h]
      exact (List.Perm.cons b ih).trans (List.Perm.swap a b t)

theorem insert_sorted_sorted (a : ℕ) (l : List ℕ)
    (h : l.Sorted (fun x y => x ≤ y)) : (insert_sorted a l).Sorted (fun x y => x ≤ y) := by
  induction l with
  | nil => simp [insert_sorted]
  | cons b t ih =>
    rw [List.sorted_cons] at h
    unfold insert_sorted
    by_cases hab : a ≤ b
    · rw [if_pos hab]
      refine List.sorted_cons.mpr ⟨?_, List.sorted_cons.mpr h⟩
      intro c hc
      rcases List.mem_cons.mp hc with rfl | hct
      · exact hab
      · exact le_trans hab (h.1 c hct)
    · rw [if_neg hab]
      refine List.sorted_cons.mpr ⟨?_, ih h.2⟩
      intro c hc
      rcases List.mem_cons.mp ((insert_sorted_perm a t).mem_iff.mp hc) with rfl | hct
      · exact le_of_not_le hab
      · exact h.1 c hct

theorem sort_names_perm (l : List ℕ) : List.Perm (sort_names l) l := by
  induction l with
  | nil => rfl
  | cons a t ih => exact (insert_sorted_perm a (sort_names t)).trans (List.Perm.cons a ih)

theorem sort_names_sorted (l : List ℕ) : (sort_names l).Sorted (fun x y => x ≤ y) := by
  induction l with
  | nil => simp [sort_names]
  | cons a t ih => exact insert_sorted_sorted a (sort_names t) ih

theorem sort_names_congr {l1 l2 : List ℕ} (h : List.Perm l1 l2) :
    sort_names l1 = sort_names l2 := by
  refine List.eq_of_perm_of_sorted ?_ (sort_names_sorted l1) (sort_names_sorted l2)
  exact ((sort_names_perm l1).trans h).trans (sort_names_perm l2).symm

/-- stations_hash on a Python list (the brute chooser hashes combinations,
which are lists): sorted(list(c)). -/
def stations_hash (stations_set : List ℕ) : List ℕ := sort_names stations_set

/-- stations_hash on a Python set: list() enumerates the set in some order and
sorted() canonicalizes, so the result is the sorted enumeration of the set. -/
def stations_hash_set (s : Finset ℕ) : List ℕ :=
  Quotient.lift sort_names (fun _ _ h => sort_names_congr h) s.val

/-! ### The decision-tree memo (spec §4.7) -/

/-- A node of the decision-tree memo: the most recent missing energy and the
visit counter. -/
structure TreeEntry where
  missing_energy : ℚ
  visit_counter : ℕ
deriving DecidableEq

/-- A Python value used as a decision-tree dict key or as a membership probe.
All keys the program ever writes are stations_hash strings (ofHash); the
probe in `evaluate` is a set object (ofSet).  Python compares values of
different types as unequal, which the two constructors capture. -/
inductive PyKey
  | ofHash : List ℕ → PyKey
  | ofSet : Finset ℕ → PyKey
deriving DecidableEq

/-- The decision-tree memo, a dict keyed by PyKey. -/
abbrev DecisionTree := List (PyKey × TreeEntry)

theorem lookup_of_mem_keys {k : PyKey} {tree : DecisionTree}
    (h : k ∈ tree.map Prod.fst) : ∃ e, tree.lookup k = some e := by
  induction tree with
  | nil => simp at h
  | cons p rest ih =>
    simp only [List.map_cons, List.mem_cons] at h
    by_cases hk : k = p.1
    · exact ⟨p.2, by simp [List.lookup, hk]⟩
    · have hne : (k == p.1) = false := by simp [hk]
      rcases ih (h.resolve_left hk) with ⟨e, he⟩
      exact ⟨e, by simp [List.lookup, hne, he]⟩

/-! ### C2 — the memo substitution in `evaluate` (optimizer.py lines 879-886) -/

/-- optimizer.py lines 879-893, the pot_sum computation of `evaluate` for one
station entry.  With decision_tree=None the branch of lines 880-886 is
skipped and pot_sum is the sum of the per-trip potentials E_pot (lines
888-893).  With a decision tree, line 881 computes
  `check_stations = electrified_station_set.union(station_name)`:
station_name is a STRING, so Python unions the set with the characters of
the name, yielding a set object; line 882 then probes
`check_stations in decision_tree.keys()`, and a dict-keys membership test
hashes its argument first — a Python set is unhashable, so the probe raises
TypeError: unhashable type before any key comparison.  That error path is
modelled as none; the substitution of lines 883-885 is unreachable. -/
def evaluate_pot_sum (electrified_station_set : Finset ℕ)
    (decision_tree : Option DecisionTree) (station_name : ℕ)
    (pot_list : List ℚ) : Option ℚ :=
  match decision_tree with
  | none => some pot_list.sum
  | some _ => none

/-- The memo substitution can never fire: whenever a decision tree is passed
and a station entry is processed, line 882 raises TypeError (hashing the
unhashable set check_stations), so evaluate crashes before producing any
pot_sum; only the tree-less call path (the one the repository actually uses)
returns, with the plain sum of the per-trip potentials. -/
theorem evaluate_pot_sum_never_substitutes (electrified_station_set : Finset ℕ)
    (decision_tree : Option DecisionTree) (station_name : ℕ)
    (pot_list : List ℚ) :
    evaluate_pot_sum electrified_station_set decision_tree station_name pot_list =
      match decision_tree with
      | none => some pot_list.sum
      | some _ => none := rfl

/-- C2: concrete failing input.  electrified = ∅, station 7, per-trip
potentials [1, 2], and a memo that DOES hold an entry keyed by the
fingerprint of electrified ∪ {7} (missing_energy −5) and one keyed by the
fingerprint of ∅ (missing_energy −9).  The claim demands pot_sum to become
the stored delta −5 − (−9) = 4; the code instead raises TypeError at line
882 (modelled as none), producing no pot_sum at all — in particular not the
demanded some 4.  Without a decision tree the plain sum 3 is returned, which
also differs from 4. -/
theorem C2_evaluate_pot_sum_bug :
    evaluate_pot_sum ∅
        (some [(PyKey.ofHash (stations_hash [7]), ⟨-5, 1⟩),
               (PyKey.ofHash (stations_hash []), ⟨-9, 1⟩)]) 7 [1, 2] = none ∧
      evaluate_pot_sum ∅
        (some [(PyKey.ofHash (stations_hash [7]), ⟨-5, 1⟩),
               (PyKey.ofHash (stations_hash []), ⟨-9, 1⟩)]) 7 [1, 2] ≠
        some (-5 - (-9)) ∧
      evaluate_pot_sum ∅ none 7 [1, 2] = some 3 ∧ (3 : ℚ) ≠ -5 - (-9) := by
  refine ⟨rfl, by simp [evaluate_pot_sum], ?_, by norm_num⟩
  show some ((1 : ℚ) + (2 + 0)) = some 3
  norm_num

/-! ### C5 — choose_station_brute (optimizer.py lines 669-688 and 710-729) -/

/-- optimizer.py lines 669-688 (combination_generator): all ways to draw
`amount` elements from the list keeping order, in the order the recursive
generator yields them.  The source yields singletons whenever amount <= 1,
including amount = 0. -/
def combination_generator : List ℕ → ℕ → List (List ℕ)
  | [], _ => []
  | item :: rest, amount =>
    (if amount ≤ 1 then [[item]]
     else (combination_generator rest (amount - 1)).map (fun g => item :: g)) ++
      combination_generator rest amount

/-- The per-combination pot_sum sum of lines 714 and 721 (station_eval_dict;
the station ids produced by `evaluate` are distinct dict keys). -/
def comb_potential (station_eval : List (ℕ × ℚ)) (comb : List ℕ) : ℚ :=
  (comb.map (fun stat => (station_eval.lookup stat).getD 0)).sum

/-- optimizer.py lines 715-729: the enumeration loop of choose_station_brute.
A combination whose fingerprint is in the memo is skipped; an unseen one is
returned iff its potential exceeds -missing_energy·0.8, else skipped; the
for-else returns (None, False) on exhaustion. -/
def brute_loop (station_eval : List (ℕ × ℚ)) (decision_tree : DecisionTree)
    (missing_energy : ℚ) : List (List ℕ) → Option (List ℕ) × Bool
  | [] => (none, false)
  | comb :: rest =>
    if (decision_tree.map Prod.fst).contains (PyKey.ofHash (stations_hash comb)) then
      brute_loop station_eval decision_tree missing_energy rest
    else if -missing_energy * (4/5) < comb_potential station_eval comb then
      (some comb, false)
    else
      brute_loop station_eval decision_tree missing_energy rest

/-- optimizer.py lines 710-729 (choose_station_brute); the parameter
electrified_station_set exists in the source but is never used. -/
def choose_station_brute (station_eval : List (ℕ × ℚ))
    (electrified_station_set pre_optimized_set : Finset ℕ)
    (decision_tree : DecisionTree) (missing_energy : ℚ) :
    Option (List ℕ) × Bool :=
  brute_loop station_eval decision_tree missing_energy
    (combination_generator (station_eval.map Prod.fst) pre_optimized_set.card)

/-- The mathematical k-combination enumeration of claim C5's wording: draw
exactly k elements in the generator's order; k = 0 yields only the empty
combination. -/
def combinations : List ℕ → ℕ → List (List ℕ)
  | _, 0 => [[]]
  | [], _ + 1 => []
  | item :: rest, k + 1 =>
    (combinations rest k).map (fun g => item :: g) ++ combinations rest (k + 1)

/-- Claim C5's description of the brute chooser: scan the combinations of k
evaluated station ids in ranked order and return the first whose fingerprint
is unseen in the memo and whose summed pot_sum exceeds 0.8·|missing_energy|,
paired with recursive = false; (None, False) when exhausted. -/
def choose_brute_claimed (station_eval : List (ℕ × ℚ)) (k : ℕ)
    (decision_tree : DecisionTree) (missing_energy : ℚ) :
    Option (List ℕ) × Bool :=
  match (combinations (station_eval.map Prod.fst) k).find? (fun comb =>
      !(decision_tree.map Prod.fst).contains (PyKey.ofHash (stations_hash comb)) &&
        decide ((4/5) * |missing_energy| < comb_potential station_eval comb)) with
  | some comb => (some comb, false)
  | none => (none, false)

/-- C5 counterexample: with pre_optimized_set = ∅ (non-null) the source's
generator yields 1-element combinations (its amount ≤ 1 branch also covers
amount = 0) and the call returns (some [5], false), while the claim's
enumeration of |∅| = 0-element combinations is exhausted (the empty
combination has potential 0 ≤ 0.8·5) and must give (none, false). -/
theorem C5_choose_brute_cex :
    choose_station_brute [(5, 10)] ∅ ∅ [] (-5) = (some [5], false) ∧
      choose_brute_claimed [(5, 10)] 0 [] (-5) = (none, false) := by
  constructor
  · norm_num [choose_station_brute, brute_loop, combination_generator, comb_potential,
      stations_hash, sort_names, insert_sorted]
  · norm_num [choose_brute_claimed, combinations, comb_potential, List.find?]

theorem combination_generator_zero_eq_one (l : List ℕ) :
    combination_generator l 0 = combination_generator l 1 := by
  induction l with
  | nil => rfl
  | cons a t ih => simp [combination_generator, ih]

theorem combination_generator_eq_combinations (l : List ℕ) (k : ℕ) (hk : 1 ≤ k) :
    combination_generator l k = combinations l k := by
  induction l generalizing k with
  | nil =>
    cases k with
    | zero => omega
    | succ n => rfl
  | cons a t ih =>
    cases k with
    | zero => omega
    | succ n =>
      cases n with
      | zero => simp [combination_generator, combinations, ih 1 le_rfl]
      | succ m =>
        have h1 : ¬ (m + 2 ≤ 1) := by omega
        simp only [combination_generator, combinations, h1, if_false,
          Nat.add_sub_cancel]
        rw [ih (m + 1) (by omega), ih (m + 2) (by omega)]

theorem brute_loop_eq_find (station_eval : List (ℕ × ℚ)) (tree : DecisionTree)
    (missing : ℚ) (combos : List (List ℕ)) :
    brute_loop station_eval tree missing combos =
      (match combos.find? (fun comb =>
          !(tree.map Prod.fst).contains (PyKey.ofHash (stations_hash comb)) &&
            decide (-missing * (4/5) < comb_potential station_eval comb)) with
        | some comb => (some comb, false)
        | none => (none, false)) := by
  induction combos with
  | nil => rfl
  | cons c rest ih =>
    unfold brute_loop
    by_cases h1 : (tree.map Prod.fst).contains (PyKey.ofHash (stations_hash c))
    · rw [if_pos h1, ih, List.find?_cons_of_neg _ (by
        simp only [h1, Bool.not_true, Bool.false_and]
        exact Bool.false_ne_true)]
    · have hb : (tree.map Prod.fst).contains (PyKey.ofHash (stations_hash c)) = false := by
        rwa [Bool.not_eq_true] at h1
      by_cases h2 : -missing * (4/5) < comb_potential station_eval c
      · rw [if_neg h1, if_pos h2, List.find?_cons_of_pos _ (by
          simp only [hb, Bool.not_false, Bool.true_and, decide_eq_true_eq]
          exact h2)]
      · rw [if_neg h1, if_neg h2, ih, List.find?_cons_of_neg _ (by
          simp only [hb, Bool.not_false, Bool.true_and, decide_eq_true_eq]
          exact h2)]

/-- C5 amended: for every ranked evaluation, memo, pre_optimized_set and
missing_energy < 0, choose_station_brute enumerates the combinations of
max(1, |pre_optimized_set|) stations from the evaluated station ids in ranked
order, skips every combination whose fingerprint is in the memo, returns the
first unseen combination whose summed pot_sum exceeds 0.8·|missing_energy|
paired with recursive = false, and returns (None, false) when the enumeration
is exhausted. -/
theorem choose_station_brute_eq_claimed (station_eval : List (ℕ × ℚ))
    (electrified_station_set pre_optimized_set : Finset ℕ) (decision_tree : DecisionTree)
    (missing_energy : ℚ) (hm : missing_energy < 0) :
    choose_station_brute station_eval electrified_station_set pre_optimized_set
        decision_tree missing_energy =
      choose_brute_claimed station_eval (max 1 pre_optimized_set.card)
        decision_tree missing_energy := by
  unfold choose_station_brute choose_brute_claimed
  have habs : (4/5 : ℚ) * |missing_energy| = -missing_energy * (4/5) := by
    rw [abs_of_neg hm]; ring
  have hgen : combination_generator (station_eval.map Prod.fst) pre_optimized_set.card =
      combinations (station_eval.map Prod.fst) (max 1 pre_optimized_set.card) := by
    cases hc : pre_optimized_set.card with
    | zero =>
      rw [combination_generator_zero_eq_one,
        combination_generator_eq_combinations _ 1 le_rfl]
      rfl
    | succ n =>
      rw [combination_generator_eq_combinations _ _ (by omega)]
      have : max 1 (n + 1) = n + 1 := by omega
      rw [this]
  rw [brute_loop_eq_find, hgen]
  simp only [habs]

/-- C5 witness: the amended equivalence at a concrete input with
|pre_optimized_set| = 1 and missing_energy = −5. -/
theorem C5_choose_brute_witness :
    choose_station_brute [(5, 10)] ∅ {3} [] (-5) =
      choose_brute_claimed [(5, 10)] (max 1 ({3} : Finset ℕ).card) [] (-5) :=
  choose_station_brute_eq_claimed [(5, 10)] ∅ {3} [] (-5) (by norm_num)

/-! ### C6 — choose_station_step_by_step (optimizer.py lines 732-775) -/

/-- The Python value returned by choose_station_step_by_step: a proper
(ids, recursive) pair from the scan or the prune, a BARE one-element list
from the fallback (line 774: `return [best_station_id]`), a bare None from
line 775, or an exception (err: KeyError when the fallback indexes a missing
memo key, TypeError when decision_tree is None there). -/
inductive StepResult
  | pair : Option (List ℕ) → Bool → StepResult
  | bare : List ℕ → StepResult
  | bareNone : StepResult
  | err : StepResult
deriving DecidableEq

/-- Whether a StepResult is a proper (ids, recursive) pair. -/
def StepResult.isPair : StepResult → Bool
  | pair _ _ => true
  | _ => false

/-- Python min(a, b) where a may be float('inf') (none). -/
def min_inf (a : Option ℕ) (b : ℕ) : Option ℕ :=
  some (match a with
    | none => b
    | some x => min x b)

/-- optimizer.py lines 769-775, the for-else fallback of the step-by-step
chooser: return (bare) the first station whose extension's visit_counter
equals min_count_visited; indexing the memo with an absent key raises. -/
def step_fallback (electrified_station_set : Finset ℕ)
    (decision_tree : Option DecisionTree) (min_count_visited : Option ℕ) :
    List (ℕ × ℚ) → StepResult
  | [] => StepResult.bareNone
  | station :: rest =>
    match decision_tree with
    | none => StepResult.err
    | some tree =>
      match tree.lookup (PyKey.ofHash (stations_hash_set
          (insert station.1 electrified_station_set))) with
      | none => StepResult.err
      | some entry =>
        if some entry.visit_counter = min_count_visited then StepResult.bare [station.1]
        else step_fallback electrified_station_set decision_tree min_count_visited rest

/-- optimizer.py lines 750-764, the first scan of choose_station_step_by_step:
extensions already in the memo update min_count_visited and are skipped; the
first unvisited extension whose station is not yet electrified is returned as
([station], True); when the loop completes, the for-else fallback runs over
the whole evaluation. -/
def step_scan (station_eval : List (ℕ × ℚ)) (electrified_station_set : Finset ℕ)
    (decision_tree : Option DecisionTree) :
    List (ℕ × ℚ) → Option ℕ → StepResult
  | [], mc => step_fallback electrified_station_set decision_tree mc station_eval
  | station :: rest, mc =>
    match decision_tree with
    | some tree =>
      if (tree.map Prod.fst).contains (PyKey.ofHash (stations_hash_set
          (insert station.1 electrified_station_set))) then
        step_scan station_eval electrified_station_set decision_tree rest
          (min_inf mc ((tree.lookup (PyKey.ofHash (stations_hash_set
            (insert station.1 electrified_station_set)))).getD ⟨0, 0⟩).visit_counter)
      else if station.1 ∈ electrified_station_set then
        step_scan station_eval electrified_station_set decision_tree rest mc
      else StepResult.pair (some [station.1]) true
    | none =>
      if station.1 ∈ electrified_station_set then
        step_scan station_eval electrified_station_set decision_tree rest mc
      else StepResult.pair (some [station.1]) true

/-- optimizer.py lines 732-775 (choose_station_step_by_step), including the
pre_optimized_set bound prune of lines 741-748: when the sum of the top
delta = |pre| − |electrified| pot_sums is ≤ −missing_energy, return
(None, False); otherwise run the scan with min_count_visited = inf. -/
def choose_station_step_by_step (station_eval : List (ℕ × ℚ))
    (electrified_station_set : Finset ℕ) (pre_optimized_set : Option (Finset ℕ))
    (decision_tree : Option DecisionTree) (missing_energy : ℚ) : StepResult :=
  match pre_optimized_set with
  | some pre =>
    if ((station_eval.take (min ((pre.card : ℤ) - (electrified_station_set.card : ℤ))
          (station_eval.length : ℤ)).toNat).map Prod.snd).sum ≤ -missing_energy then
      StepResult.pair none false
    else
      step_scan station_eval electrified_station_set decision_tree station_eval none
  | none => step_scan station_eval electrified_station_set decision_tree station_eval none

/-- C6 counterexample.  station_eval = [(4, 1)], electrified = ∅, no
pre-optimized set, memo = {fingerprint {4} ↦ (−1, visit 3)}: every candidate
extension is in the memo (the claim's hypothesis holds), and the code returns
the bare list [4] from line 774 — NOT an (ids, recursive) pair, so the caller
`best_station_ids, recursive = ...` cannot unpack it.  Additionally, when a
station is already electrified and its extension is unmemoized (second call),
the fallback raises KeyError instead of returning anything. -/
theorem C6_step_by_step_cex :
    (∀ station ∈ [((4 : ℕ), (1 : ℚ))],
        PyKey.ofHash (stations_hash_set (insert station.1 (∅ : Finset ℕ))) ∈
            ([(PyKey.ofHash [4], (⟨-1, 3⟩ : TreeEntry))].map Prod.fst) ∨
          station.1 ∈ (∅ : Finset ℕ)) ∧
      choose_station_step_by_step [(4, 1)] ∅ none
          (some [(PyKey.ofHash [4], ⟨-1, 3⟩)]) (-1) = StepResult.bare [4] ∧
      StepResult.isPair (StepResult.bare [4]) = false ∧
      choose_station_step_by_step [(4, 1)] {4} none (some []) (-1) = StepResult.err := by
  refine ⟨by decide, by decide, by decide, by decide⟩

/-- The visit_counter stored in the memo for the extension
electrified ∪ {station}. -/
def ext_counter (electrified_station_set : Finset ℕ) (tree : DecisionTree)
    (station_id : ℕ) : ℕ :=
  ((tree.lookup (PyKey.ofHash (stations_hash_set
    (insert station_id electrified_station_set)))).getD ⟨0, 0⟩).visit_counter

theorem step_scan_all_visited (station_eval : List (ℕ × ℚ)) (ele : Finset ℕ)
    (tree : DecisionTree) (remaining : List (ℕ × ℚ)) (mc : Option ℕ)
    (hmem : ∀ s ∈ remaining, PyKey.ofHash (stations_hash_set (insert s.1 ele)) ∈
      tree.map Prod.fst) :
    step_scan station_eval ele (some tree) remaining mc =
      step_fallback ele (some tree)
        (remaining.foldl (fun a s => min_inf a (ext_counter ele tree s.1)) mc)
        station_eval := by
  induction remaining generalizing mc with
  | nil => rfl
  | cons s rest ih =>
    have hs := hmem s (by simp)
    have hcont : (tree.map Prod.fst).contains (PyKey.ofHash (stations_hash_set
        (insert s.1 ele))) = true := by simpa using hs
    unfold step_scan
    dsimp only
    rw [if_pos hcont, ih _ (fun q hq => hmem q (by simp [hq]))]
    rfl

theorem foldl_min_inf_some (cs : List ℕ) (c : ℕ) :
    ∃ m, cs.foldl min_inf (some c) = some m ∧ (m = c ∨ m ∈ cs) ∧ m ≤ c ∧
      ∀ x ∈ cs, m ≤ x := by
  induction cs generalizing c with
  | nil => exact ⟨c, rfl, Or.inl rfl, le_rfl, by simp⟩
  | cons d ds ih =>
    rcases ih (min c d) with ⟨m, hm, hor, hle, hall⟩
    refine ⟨m, hm, ?_, le_trans hle (min_le_left c d), ?_⟩
    · rcases hor with rfl | h
      · rcases min_cases c d with ⟨h1, _⟩ | ⟨h1, _⟩
        · exact Or.inl h1
        · exact Or.inr (by simp [h1])
      · exact Or.inr (by simp [h])
    · intro x hx
      rcases List.mem_cons.mp hx with rfl | hx
      · exact le_trans hle (min_le_right c x)
      · exact hall x hx

theorem foldl_min_inf_spec (counters : List ℕ) (hne : counters ≠ []) :
    ∃ m, counters.foldl min_inf none = some m ∧ m ∈ counters ∧
      ∀ x ∈ counters, m ≤ x := by
  cases counters with
  | nil => exact absurd rfl hne
  | cons c cs =>
    rcases foldl_min_inf_some cs c with ⟨m, hm, hor, hle, hall⟩
    refine ⟨m, hm, ?_, ?_⟩
    · rcases hor with rfl | h
      · simp
      · simp [h]
    · intro x hx
      rcases List.mem_cons.mp hx with rfl | hx
      · exact hle
      · exact hall x hx

theorem step_fallback_finds (ele : Finset ℕ) (tree : DecisionTree) (m : ℕ) :
    ∀ (l : List (ℕ × ℚ)),
      (∀ s ∈ l, PyKey.ofHash (stations_hash_set (insert s.1 ele)) ∈ tree.map Prod.fst) →
      (∃ s ∈ l, ext_counter ele tree s.1 = m) →
      ∃ p ∈ l, step_fallback ele (some tree) (some m) l = StepResult.bare [p.1] ∧
        ext_counter ele tree p.1 = m := by
  intro l
  induction l with
  | nil =>
    rintro _ ⟨s, hs, _⟩
    simp at hs
  | cons s rest ih =>
    intro hmem hex
    rcases lookup_of_mem_keys (hmem s (by simp)) with ⟨e, he⟩
    have hse : ext_counter ele tree s.1 = e.visit_counter := by
      unfold ext_counter
      rw [he]
      rfl
    unfold step_fallback
    dsimp only
    rw [he]
    dsimp only
    by_cases hce : some e.visit_counter = some m
    · rw [if_pos hce]
      refine ⟨s, by simp, rfl, ?_⟩
      rw [hse]
      exact Option.some_injective _ hce
    · rw [if_neg hce]
      have hexr : ∃ q ∈ rest, ext_counter ele tree q.1 = m := by
        rcases hex with ⟨q, hq, hqc⟩
        rcases List.mem_cons.mp hq with rfl | hq2
        · exact absurd (by rw [← hse, hqc]) hce
        · exact ⟨q, hq2, hqc⟩
      rcases ih (fun q hq => hmem q (by simp [hq])) hexr with ⟨p, hp, hres, hpc⟩
      exact ⟨p, by simp [hp], hres, hpc⟩

/-- C6 amended: with a decision-tree memo given, no pre-optimized set, a
nonempty ranked evaluation and EVERY candidate extension's fingerprint
present in the memo, choose_station_step_by_step returns the (first) station
whose memo entry has the least visit_counter among all extensions — but as a
BARE one-element list (line 774), not as a (best_station_ids, recursive)
pair, so the caller's tuple unpacking fails on it. -/
theorem choose_step_by_step_all_visited (station_eval : List (ℕ × ℚ))
    (electrified_station_set : Finset ℕ) (tree : DecisionTree) (missing_energy : ℚ)
    (hne : station_eval ≠ [])
    (hmem : ∀ s ∈ station_eval, PyKey.ofHash (stations_hash_set
      (insert s.1 electrified_station_set)) ∈ tree.map Prod.fst) :
    ∃ p ∈ station_eval,
      choose_station_step_by_step station_eval electrified_station_set none
          (some tree) missing_energy = StepResult.bare [p.1] ∧
        ∀ q ∈ station_eval, ext_counter electrified_station_set tree p.1 ≤
          ext_counter electrified_station_set tree q.1 := by
  unfold choose_station_step_by_step
  rw [step_scan_all_visited _ _ _ _ none hmem]
  have hfold : station_eval.foldl
      (fun a s => min_inf a (ext_counter electrified_station_set tree s.1)) none =
      List.foldl min_inf none
        (station_eval.map (fun s => ext_counter electrified_station_set tree s.1)) := by
    rw [List.foldl_map]
  rcases foldl_min_inf_spec
      (station_eval.map (fun s => ext_counter electrified_station_set tree s.1))
      (by simpa using hne) with ⟨m, hm, hmmem, hmall⟩
  rw [hfold, hm]
  rcases List.mem_map.mp hmmem with ⟨s0, hs0, hs0c⟩
  rcases step_fallback_finds electrified_station_set tree m station_eval hmem
      ⟨s0, hs0, hs0c⟩ with ⟨p, hp, hres, hpc⟩
  refine ⟨p, hp, hres, ?_⟩
  intro q hq
  rw [hpc]
  exact hmall _ (List.mem_map_of_mem _ hq)

/-- C6 witness: the amended theorem at a concrete memo where the extension of
station 6 has the least visit counter. -/
theorem C6_step_by_step_witness :
    ∃ p ∈ [((4 : ℕ), (1 : ℚ)), (6, 2)],
      choose_station_step_by_step [(4, 1), (6, 2)] ∅ none
          (some [(PyKey.ofHash [4], ⟨-1, 5⟩), (PyKey.ofHash [6], ⟨-2, 2⟩)]) (-1) =
        StepResult.bare [p.1] ∧
      ∀ q ∈ [((4 : ℕ), (1 : ℚ)), (6, 2)],
        ext_counter ∅ [(PyKey.ofHash [4], ⟨-1, 5⟩), (PyKey.ofHash [6], ⟨-2, 2⟩)] p.1 ≤
        ext_counter ∅ [(PyKey.ofHash [4], ⟨-1, 5⟩), (PyKey.ofHash [6], ⟨-2, 2⟩)] q.1 :=
  choose_step_by_step_all_visited [(4, 1), (6, 2)] ∅
    [(PyKey.ofHash [4], ⟨-1, 5⟩), (PyKey.ofHash [6], ⟨-2, 2⟩)] (-1)
    (by decide) (by decide)

/-! ### C9 — charging_curve_to_soc_over_time (optimizer.py lines 1102-1125) -/

/-- np.interp over a piecewise-linear table of (x, y) points with
non-decreasing x: clamped to the first y left of the first point and to the
last y right of the last point.  numpy raises on an empty table; we return 0. -/
def np_interp (x : ℚ) : List (ℚ × ℚ) → ℚ
  | [] => 0
  | [p] => p.2
  | p :: q :: rest =>
    if x ≤ p.1 then p.2
    else if x ≤ q.1 then p.2 + (q.2 - p.2) * (x - p.1) / (q.1 - p.1)
    else np_interp x (q :: rest)

/-- One iteration of the while-loop (lines 1113-1121): trapezoidal power
estimate from the normalized curve, capped by the grid share, the mean scaled
by the efficiency, advancing soc by timestep/60 · power. -/
def charge_step (normalized_curve : List (ℚ × ℚ))
    (grid_per_capacity timestep efficiency : ℚ) (soc : ℚ) : ℚ :=
  let power1 := min (np_interp soc normalized_curve) grid_per_capacity
  let soc2 := soc + timestep / 60 * power1
  let power2 := min (np_interp soc2 normalized_curve) grid_per_capacity
  soc + timestep / 60 * ((power1 + power2) / 2 * efficiency)

/-- The while-loop (while soc < 1) of charging_curve_to_soc_over_time, fuel
indexed because the Python loop need not terminate: none when the fuel runs
out with soc still < 1, otherwise the accumulated (time, soc) rows with the
terminal row (time, 1) appended (lines 1122-1124). -/
def charge_loop (normalized_curve : List (ℚ × ℚ))
    (grid_per_capacity timestep efficiency : ℚ) :
    ℕ → ℚ → ℚ → List (ℚ × ℚ) → Option (List (ℚ × ℚ))
  | 0, soc, time, acc => if soc < 1 then none else some (acc ++ [(time, 1)])
  | fuel + 1, soc, time, acc =>
    if soc < 1 then
      charge_loop normalized_curve grid_per_capacity timestep efficiency fuel
        (charge_step normalized_curve grid_per_capacity timestep efficiency soc)
        (time + timestep) (acc ++ [(time, soc)])
    else some (acc ++ [(time, 1)])

/-- optimizer.py lines 1102-1125 (charging_curve_to_soc_over_time): normalize
the charging curve by the capacity and run the integration loop from
(time, soc) = (0, 0). -/
def charging_curve_to_soc_over_time (charging_curve : List (ℚ × ℚ)) (capacity : ℚ)
    (max_charge_from_grid : ℚ) (timestep : ℚ) (efficiency : ℚ) (fuel : ℕ) :
    Option (List (ℚ × ℚ)) :=
  charge_loop (charging_curve.map (fun sp => (sp.1, sp.2 / capacity)))
    (max_charge_from_grid / capacity) timestep efficiency fuel 0 0 []

theorem charge_loop_last_soc (nc : List (ℚ × ℚ)) (g ts eff : ℚ) :
    ∀ (fuel : ℕ) (soc time : ℚ) (acc tbl : List (ℚ × ℚ)),
      charge_loop nc g ts eff fuel soc time acc = some tbl →
      ∃ t, tbl.getLast? = some (t, 1) := by
  intro fuel
  induction fuel with
  | zero =>
    intro soc time acc tbl h
    unfold charge_loop at h
    by_cases hs : soc < 1
    · rw [if_pos hs] at h
      exact absurd h (by simp)
    · rw [if_neg hs] at h
      exact ⟨time, by rw [← Option.some_injective _ h, List.getLast?_concat]⟩
  | succ n ih =>
    intro soc time acc tbl h
    unfold charge_loop at h
    by_cases hs : soc < 1
    · rw [if_pos hs] at h
      exact ih _ _ _ _ h
    · rw [if_neg hs] at h
      exact ⟨time, by rw [← Option.some_injective _ h, List.getLast?_concat]⟩

theorem charge_step_ge (nc : List (ℚ × ℚ)) (g ts eff c soc : ℚ)
    (hts : 0 < ts) (heff : 0 < eff) (hc : 0 < c)
    (hpow : ∀ x : ℚ, 0 ≤ x → c ≤ eff * min (np_interp x nc) g) (h0 : 0 ≤ soc) :
    soc + ts / 60 * c ≤ charge_step nc g ts eff soc := by
  unfold charge_step
  dsimp only
  have hp1 : c ≤ eff * min (np_interp soc nc) g := hpow soc h0
  have hp1pos : 0 < min (np_interp soc nc) g := by nlinarith
  have hsoc2 : 0 ≤ soc + ts / 60 * min (np_interp soc nc) g := by positivity
  have hp2 : c ≤ eff * min (np_interp (soc + ts / 60 * min (np_interp soc nc) g) nc) g :=
    hpow _ hsoc2
  have havg : c ≤ (min (np_interp soc nc) g +
      min (np_interp (soc + ts / 60 * min (np_interp soc nc) g) nc) g) / 2 * eff := by
    nlinarith
  have hts60 : (0 : ℚ) ≤ ts / 60 := by positivity
  exact add_le_add_left (mul_le_mul_of_nonneg_left havg hts60) soc

theorem charge_loop_terminates (nc : List (ℚ × ℚ)) (g ts eff c : ℚ)
    (hts : 0 < ts) (heff : 0 < eff) (hc : 0 < c)
    (hpow : ∀ x : ℚ, 0 ≤ x → c ≤ eff * min (np_interp x nc) g) :
    ∀ (fuel : ℕ) (soc time : ℚ) (acc : List (ℚ × ℚ)),
      0 ≤ soc → 1 ≤ soc + (fuel : ℚ) * (ts / 60 * c) →
      (charge_loop nc g ts eff fuel soc time acc).isSome := by
  intro fuel
  induction fuel with
  | zero =>
    intro soc time acc h0 h1
    unfold charge_loop
    rw [if_neg (by push_cast at h1; linarith)]
    simp
  | succ n ih =>
    intro soc time acc h0 h1
    unfold charge_loop
    by_cases hs : soc < 1
    · rw [if_pos hs]
      have hstep := charge_step_ge nc g ts eff c soc hts heff hc hpow h0
      apply ih
      · have : (0 : ℚ) ≤ soc + ts / 60 * c := by positivity
        linarith
      · push_cast at h1 ⊢
        linarith
    · rw [if_neg hs]
      simp

/-- C9 amended, first half: if the capped, efficiency-scaled, capacity-
normalized interpolated power is at least c > 0 at EVERY soc ≥ 0 (not only on
[0, 1): the integrator also samples the interpolant above 1 when a step
overshoots), and the timestep and efficiency are positive, then the loop
terminates within any fuel of at least 1/(ts/60·c) steps and the returned
table's last row has soc exactly 1.  Second half: with the charging curve
[(0,0),(1,100)] — a breakpoint with power 0 below soc 1 — the loop never
terminates. -/
theorem charging_curve_termination :
    (∀ (charging_curve : List (ℚ × ℚ)) (capacity grid ts eff c : ℚ),
      0 < capacity → 0 < ts → 0 < eff → 0 < c →
      (∀ x : ℚ, 0 ≤ x →
        c ≤ eff * min (np_interp x (charging_curve.map (fun sp => (sp.1, sp.2 / capacity))))
          (grid / capacity)) →
      ∀ fuel : ℕ, 1 ≤ (fuel : ℚ) * (ts / 60 * c) →
        ∃ tbl, charging_curve_to_soc_over_time charging_curve capacity grid ts eff fuel =
          some tbl ∧ ∃ t, tbl.getLast? = some (t, 1)) ∧
    (∀ fuel : ℕ,
      charging_curve_to_soc_over_time [(0, 0), (1, 100)] 1 (10^6) 60 1 fuel = none) := by
  constructor
  · intro curve capacity grid ts eff c _hcap hts heff hc hpow fuel hfuel
    have hsome := charge_loop_terminates
      (curve.map (fun sp => (sp.1, sp.2 / capacity))) (grid / capacity) ts eff c
      hts heff hc hpow fuel 0 0 [] le_rfl (by linarith)
    unfold charging_curve_to_soc_over_time
    rcases Option.isSome_iff_exists.mp hsome with ⟨tbl, htbl⟩
    exact ⟨tbl, htbl, charge_loop_last_soc _ _ _ _ _ _ _ _ _ htbl⟩
  · intro fuel
    unfold charging_curve_to_soc_over_time
    have hstep : charge_step ([(0, 0), (1, 100)].map (fun sp => (sp.1, sp.2 / 1)))
        (10^6 / 1) 60 1 0 = 0 := by
      norm_num [charge_step, np_interp]
    have : ∀ (f : ℕ) (time : ℚ) (acc : List (ℚ × ℚ)),
        charge_loop ([(0, 0), (1, 100)].map (fun sp => (sp.1, sp.2 / 1)))
          (10^6 / 1) 60 1 f 0 time acc = none := by
      intro f
      induction f with
      | zero =>
        intro time acc
        unfold charge_loop
        rw [if_pos (by norm_num)]
      | succ n ih =>
        intro time acc
        unfold charge_loop
        rw [if_pos (by norm_num), hstep]
        exact ih _ _
    exact this fuel 0 []

theorem cyc_step_zero :
    charge_step ([(0, 2/3), (1, 2/3), (1, -2)].map (fun sp => (sp.1, sp.2 / 1)))
      (10^6 / 1) 60 1 0 = 2/3 := by
  norm_num [charge_step, np_interp]

theorem cyc_step_up :
    charge_step ([(0, 2/3), (1, 2/3), (1, -2)].map (fun sp => (sp.1, sp.2 / 1)))
      (10^6 / 1) 60 1 (2/3) = 0 := by
  norm_num [charge_step, np_interp]

theorem cyc_loop_none : ∀ (fuel : ℕ) (soc time : ℚ) (acc : List (ℚ × ℚ)),
    soc = 0 ∨ soc = 2/3 →
    charge_loop ([(0, 2/3), (1, 2/3), (1, -2)].map (fun sp => (sp.1, sp.2 / 1)))
      (10^6 / 1) 60 1 fuel soc time acc = none := by
  intro fuel
  induction fuel with
  | zero =>
    intro soc time acc hsoc
    unfold charge_loop
    rcases hsoc with rfl | rfl
    · rw [if_pos (by norm_num)]
    · rw [if_pos (by norm_num)]
  | succ n ih =>
    intro soc time acc hsoc
    unfold charge_loop
    rcases hsoc with rfl | rfl
    · rw [if_pos (by norm_num), cyc_step_zero]
      exact ih _ _ _ (Or.inr rfl)
    · rw [if_pos (by norm_num), cyc_step_up]
      exact ih _ _ _ (Or.inl rfl)

/-- C9 counterexample: the charging curve [(0, 2/3), (1, 2/3), (1, −2)] (soc
breakpoints non-decreasing in [0, 1], capacity 1, grid 10⁶, timestep 60,
efficiency 1) satisfies the claim's precondition — the capped and scaled
interpolated power is ≥ 2/3 > 0 at every soc in [0, 1) — yet the loop never
terminates: np.interp past the duplicated final breakpoint yields power −2,
so the integrator oscillates between soc 0 and soc 2/3 forever. -/
theorem C9_charging_curve_cex :
    (∀ x : ℚ, 0 ≤ x → x < 1 →
      (2/3 : ℚ) ≤ 1 * min (np_interp x ([(0, 2/3), (1, 2/3), (1, -2)].map
        (fun sp => (sp.1, sp.2 / 1)))) (10^6 / 1)) ∧
    (0 : ℚ) < 1 ∧ (0 : ℚ) < 60 ∧
    (∀ fuel : ℕ,
      charging_curve_to_soc_over_time [(0, 2/3), (1, 2/3), (1, -2)] 1 (10^6) 60 1 fuel =
        none) := by
  refine ⟨?_, by norm_num, by norm_num, ?_⟩
  · intro x h0 h1
    simp only [List.map_cons, List.map_nil]
    unfold np_interp
    by_cases h2 : x ≤ 0
    · rw [if_pos h2]
      norm_num
    · rw [if_neg h2, if_pos (le_of_lt h1)]
      norm_num
  · intro fuel
    unfold charging_curve_to_soc_over_time
    exact cyc_loop_none fuel 0 0 [] (Or.inl rfl)

/-- C9 witness: a constant-power curve (power 600, capacity 1) reaches soc 1
in a single 60-minute step; the amended theorem applied with c = 600. -/
theorem C9_charging_curve_witness :
    ∃ tbl, charging_curve_to_soc_over_time [(0, 600)] 1 (10^6) 60 1 1 = some tbl ∧
      ∃ t, tbl.getLast? = some (t, 1) :=
  charging_curve_termination.1 [(0, 600)] 1 (10^6) 60 1 600 (by norm_num) (by norm_num)
    (by norm_num) (by norm_num)
    (by intro x hx; norm_num [np_interp]) 1 (by norm_num)

/-! ### C8 — event grouping (optimizer.py lines 358-387, 702-706, 916-926) -/

/-- A below-zero SoC event, reduced to the fields the grouper reads. -/
structure SocEvent where
  stations : Finset ℕ
  rotation_id : ℕ
deriving DecidableEq

/-- optimizer.py lines 918-921, the double index scan of join_subsets: the
first pair (i, ii) in lexicographic scan order with i ≠ ii whose sets
intersect. -/
def find_intersecting (subsets : List (Finset ℕ)) : Option (ℕ × ℕ) :=
  (List.range subsets.length).findSome? (fun i =>
    (List.range subsets.length).findSome? (fun ii =>
      if i = ii then none
      else if 0 < ((subsets.getD i ∅) ∩ (subsets.getD ii ∅)).card then some (i, ii)
      else none))

/-- optimizer.py lines 916-926 (join_subsets): on the first intersecting pair
(i, ii), overwrite subsets[i] with the union and remove the first element
equal to (the old) subsets[ii]; report whether a join happened. -/
def join_subsets (subsets : List (Finset ℕ)) : Bool × List (Finset ℕ) :=
  match find_intersecting subsets with
  | none => (false, subsets)
  | some (i, ii) =>
    (true, ((subsets.set i ((subsets.getD i ∅) ∪ (subsets.getD ii ∅))).erase
      (subsets.getD ii ∅)))

theorem find_intersecting_some {subsets : List (Finset ℕ)} {i ii : ℕ}
    (h : find_intersecting subsets = some (i, ii)) :
    i < subsets.length ∧ ii < subsets.length ∧ i ≠ ii ∧
      0 < ((subsets.getD i ∅) ∩ (subsets.getD ii ∅)).card := by
  unfold find_intersecting at h
  rcases List.exists_of_findSome?_eq_some h with ⟨a, ha, hinner⟩
  rcases List.exists_of_findSome?_eq_some hinner with ⟨b, hb, hif⟩
  by_cases hab : a = b
  · rw [if_pos hab] at hif
    exact absurd hif (by simp)
  · rw [if_neg hab] at hif
    by_cases hcard : 0 < ((subsets.getD a ∅) ∩ (subsets.getD b ∅)).card
    · rw [if_pos hcard] at hif
      have hai : a = i ∧ b = ii := by
        have := Option.some_injective _ hif
        exact ⟨congrArg Prod.fst this, congrArg Prod.snd this⟩
      rcases hai with ⟨rfl, rfl⟩
      exact ⟨List.mem_range.mp ha, List.mem_range.mp hb, hab, hcard⟩
    · rw [if_neg hcard] at hif
      exact absurd hif (by simp)

theorem find_intersecting_none {subsets : List (Finset ℕ)}
    (h : find_intersecting subsets = none) :
    ∀ i ii, i < subsets.length → ii < subsets.length → i ≠ ii →
      (subsets.getD i ∅) ∩ (subsets.getD ii ∅) = ∅ := by
  intro i ii hi hii hne
  unfold find_intersecting at h
  rw [List.findSome?_eq_none_iff] at h
  have hin := h i (List.mem_range.mpr hi)
  rw [List.findSome?_eq_none_iff] at hin
  have := hin ii (List.mem_range.mpr hii)
  rw [if_neg hne] at this
  by_cases hcard : 0 < ((subsets.getD i ∅) ∩ (subsets.getD ii ∅)).card
  · rw [if_pos hcard] at this
    exact absurd this (by simp)
  · exact Finset.card_eq_zero.mp (by omega)

theorem mem_of_getElem_opt {α : Type} {l : List α} {i : ℕ} {x : α}
    (h : l[i]? = some x) : x ∈ l := by
  rcases List.getElem?_eq_some_iff.mp h with ⟨hlt, rfl⟩
  exact List.getElem_mem hlt

theorem two_le_count_of_getElem_opt {α : Type} [DecidableEq α] :
    ∀ (l : List α) (i j : ℕ), i ≠ j → ∀ x, l[i]? = some x → l[j]? = some x →
      2 ≤ l.count x := by
  intro l
  induction l with
  | nil => intro i j _ x h1; simp at h1
  | cons a tl ih =>
    intro i j hij x hx1 hx2
    cases i with
    | zero =>
      cases j with
      | zero => exact absurd rfl hij
      | succ j1 =>
        simp only [List.getElem?_cons_zero, Option.some_inj] at hx1
        simp only [List.getElem?_cons_succ] at hx2
        subst hx1
        have hpos := List.count_pos_iff.mpr (mem_of_getElem_opt hx2)
        rw [List.count_cons_self]
        omega
    | succ i1 =>
      cases j with
      | zero =>
        simp only [List.getElem?_cons_zero, Option.some_inj] at hx2
        simp only [List.getElem?_cons_succ] at hx1
        subst hx2
        have hpos := List.count_pos_iff.mpr (mem_of_getElem_opt hx1)
        rw [List.count_cons_self]
        omega
      | succ j1 =>
        simp only [List.getElem?_cons_succ] at hx1 hx2
        have hrec := ih i1 j1 (by omega) x hx1 hx2
        have hle : tl.count x ≤ (a :: tl).count x := by
          rw [List.count_cons]
          split <;> omega
        omega

theorem mem_erase_self_of_two_le_count {α : Type} [DecidableEq α] {l : List α} {x : α}
    (h : 2 ≤ l.count x) : x ∈ l.erase x := by
  have hx : x ∈ l := List.count_pos_iff.mp (by omega)
  have hcnt := (List.perm_cons_erase hx).count_eq x
  rw [List.count_cons_self] at hcnt
  exact List.count_pos_iff.mp (by omega)

theorem join_subsets_false {subsets s : List (Finset ℕ)}
    (h : join_subsets subsets = (false, s)) :
    s = subsets ∧ find_intersecting subsets = none := by
  unfold join_subsets at h
  cases hf : find_intersecting subsets with
  | none =>
    rw [hf] at h
    exact ⟨(Prod.mk.injEq _ _ _ _ ▸ h).2.symm, rfl⟩
  | some p =>
    rw [hf] at h
    rcases p with ⟨i, ii⟩
    exact absurd (congrArg Prod.fst h) (by simp)

theorem join_subsets_true {subsets s : List (Finset ℕ)}
    (h : join_subsets subsets = (true, s)) :
    s.length < subsets.length ∧ ∀ t ∈ subsets, ∃ u ∈ s, t ⊆ u := by
  unfold join_subsets at h
  cases hf : find_intersecting subsets with
  | none =>
    rw [hf] at h
    exact absurd (congrArg Prod.fst h) (by simp)
  | some p =>
    rcases p with ⟨i, ii⟩
    rw [hf] at h
    rcases find_intersecting_some hf with ⟨hi, hii, hij, _hcard⟩
    have hs : s = ((subsets.set i ((subsets.getD i ∅) ∪ (subsets.getD ii ∅))).erase
        (subsets.getD ii ∅)) := (Prod.mk.injEq _ _ _ _ ▸ h).2.symm
    set a := subsets.getD i ∅ with ha
    set b := subsets.getD ii ∅ with hb
    set u := a ∪ b with hu
    have horig_ii : subsets[ii]? = some b := by
      rw [List.getElem?_eq_getElem hii, hb, List.getD_eq_getElem _ _ hii]
    have hset_ii : (subsets.set i u)[ii]? = some b := by
      rw [List.getElem?_set_ne hij, horig_ii]
    have hset_i : (subsets.set i u)[i]? = some u := List.getElem?_set_self hi
    have hbmem : b ∈ subsets.set i u := mem_of_getElem_opt hset_ii
    have humem : u ∈ subsets.set i u := mem_of_getElem_opt hset_i
    constructor
    · rw [hs, List.length_erase_of_mem hbmem, List.length_set]
      omega
    · have husmem : u ∈ s := by
        rw [hs]
        by_cases hub : u = b
        · have hcount : 2 ≤ (subsets.set i u).count u :=
            two_le_count_of_getElem_opt _ i ii hij u hset_i (by rw [hset_ii, hub])
          rw [hub] at hcount ⊢
          exact mem_erase_self_of_two_le_count hcount
        · exact (List.mem_erase_of_ne hub).mpr humem
      intro t ht
      by_cases hta : t = a
      · exact ⟨u, husmem, hta ▸ Finset.subset_union_left⟩
      · by_cases htb : t = b
        · exact ⟨u, husmem, htb ▸ Finset.subset_union_right⟩
        · refine ⟨t, ?_, subset_rfl⟩
          rw [hs]
          refine (List.mem_erase_of_ne htb).mpr ?_
          rcases List.getElem?_of_mem ht with ⟨k, hkt⟩
          have hki : k ≠ i := by
            intro hkeq
            apply hta
            have : subsets[i]? = some t := hkeq ▸ hkt
            rw [List.getElem?_eq_getElem hi, Option.some_inj] at this
            rw [← this, ha, List.getD_eq_getElem _ _ hi]
          refine @mem_of_getElem_opt _ _ k _ ?_
          rw [List.getElem?_set_ne (fun hh => hki hh.symm), hkt]

/-- optimizer.py lines 702-706 (join_all_subsets): repeat join_subsets until
no join happens; terminates because each join shortens the list. -/
def join_all_subsets (subsets : List (Finset ℕ)) : List (Finset ℕ) :=
  if h : (join_subsets subsets).1 = true then
    join_all_subsets (join_subsets subsets).2
  else (join_subsets subsets).2
termination_by subsets.length
decreasing_by
  exact (join_subsets_true (by rw [← h])).1

theorem join_all_subsets_spec (subsets : List (Finset ℕ)) :
    find_intersecting (join_all_subsets subsets) = none ∧
      ∀ t ∈ subsets, ∃ u ∈ join_all_subsets subsets, t ⊆ u := by
  induction subsets using join_all_subsets.induct with
  | case1 l h ih =>
    rw [join_all_subsets, dif_pos h]
    rcases join_subsets_true (by rw [← h]) with ⟨_, hcov⟩
    refine ⟨ih.1, ?_⟩
    intro t ht
    rcases hcov t ht with ⟨v, hv, htv⟩
    rcases ih.2 v hv with ⟨w, hw, hvw⟩
    exact ⟨w, hw, htv.trans hvw⟩
  | case2 l h =>
    rw [join_all_subsets, dif_neg h]
    have hfalse : join_subsets l = (false, (join_subsets l).2) := by
      have hb : (join_subsets l).1 = false := by
        cases hq : (join_subsets l).1
        · rfl
        · exact absurd hq h
      rw [← hb]
    rcases join_subsets_false hfalse with ⟨heq, hnone⟩
    rw [heq]
    exact ⟨hnone, fun t ht => ⟨t, ht, subset_rfl⟩⟩

/-- Python next(iter(stations)): an unspecified element of the set, modelled
as the least element (no claim depends on the choice). -/
def event_pick (e : SocEvent) : ℕ := (stations_hash_set e.stations).headD 0

/-- optimizer.py lines 371-384: an event with a nonempty station set is
assigned to the first station subset containing its picked element; an event
with an empty set (or whose pick lies in no subset) goes to the
could-not-be-electrified branch (none). -/
def assign_event (station_subsets : List (Finset ℕ)) (e : SocEvent) : Option ℕ :=
  if 0 < e.stations.card then
    station_subsets.findIdx? (fun subset => decide (event_pick e ∈ subset))
  else none

/-- optimizer.py lines 358-387 (get_groups_from_events): filter the events'
station sets by the not-possible stations, join the filtered sets into
connected subsets, group the events by the subset containing their pick, and
return the (event group, station subset) pairs sorted by subset size. -/
def get_groups_from_events (events : List SocEvent) (not_possible_stations : Finset ℕ) :
    List (List SocEvent × Finset ℕ) :=
  let station_subsets := join_all_subsets
    (events.map (fun e => e.stations \ not_possible_stations))
  ((List.range station_subsets.length).map (fun i =>
      (events.filter (fun e => assign_event station_subsets e = some i),
        station_subsets.getD i ∅))).mergeSort (fun x y => x.2.card ≤ y.2.card)

theorem mem_stations_hash_set {s : Finset ℕ} {x : ℕ} :
    x ∈ stations_hash_set s ↔ x ∈ s := by
  rcases s with ⟨val, nodup⟩
  induction val using Quot.inductionOn with
  | h l =>
    show x ∈ sort_names l ↔ _
    rw [(sort_names_perm l).mem_iff]
    rw [Finset.mem_mk]
    exact (Multiset.mem_coe).symm

theorem stations_hash_set_length (s : Finset ℕ) :
    (stations_hash_set s).length = s.card := by
  rcases s with ⟨val, nodup⟩
  induction val using Quot.inductionOn with
  | h l =>
    show (sort_names l).length = _
    exact (sort_names_perm l).length_eq

theorem event_pick_mem {e : SocEvent} (h : 0 < e.stations.card) :
    event_pick e ∈ e.stations := by
  unfold event_pick
  cases hl : stations_hash_set e.stations with
  | nil =>
    have hlen := stations_hash_set_length e.stations
    rw [hl] at hlen
    simp at hlen
    omega
  | cons a t =>
    have ha : a ∈ stations_hash_set e.stations := by
      rw [hl]
      simp
    simp only [List.headD_cons]
    exact mem_stations_hash_set.mp ha

theorem findIdx_opt_spec {α : Type} (p : α → Bool) :
    ∀ (l : List α) (st i : ℕ), List.findIdx? p l st = some i →
      st ≤ i ∧ ∃ x, l[i - st]? = some x ∧ p x = true := by
  intro l
  induction l with
  | nil =>
    intro st i h
    simp at h
  | cons a tl ih =>
    intro st i h
    rw [List.findIdx?_cons] at h
    by_cases hpa : p a
    · rw [if_pos hpa] at h
      have : st = i := Option.some_injective _ h
      subst this
      exact ⟨le_rfl, a, by simp, hpa⟩
    · rw [if_neg hpa] at h
      rcases ih (st + 1) i h with ⟨hle, x, hx, hpx⟩
      refine ⟨by omega, x, ?_, hpx⟩
      have hdiff : i - st = (i - (st + 1)) + 1 := by omega
      rw [hdiff, List.getElem?_cons_succ]
      exact hx

theorem assign_event_some {station_subsets : List (Finset ℕ)} {e : SocEvent} {i : ℕ}
    (h : assign_event station_subsets e = some i) :
    0 < e.stations.card ∧ i < station_subsets.length ∧
      event_pick e ∈ station_subsets.getD i ∅ := by
  unfold assign_event at h
  by_cases hc : 0 < e.stations.card
  · rw [if_pos hc] at h
    rcases findIdx_opt_spec _ _ 0 i h with ⟨_, x, hx, hpx⟩
    rw [Nat.sub_zero] at hx
    rcases List.getElem?_eq_some_iff.mp hx with ⟨hlt, hval⟩
    refine ⟨hc, hlt, ?_⟩
    rw [List.getD_eq_getElem _ _ hlt, hval]
    exact of_decide_eq_true hpx
  · rw [if_neg hc] at h
    exact absurd h (by simp)

/-- C8: when the events' candidate-station sets are disjoint from
not_possible_stations, the groups returned by get_groups_from_events have
pairwise disjoint station sets, and every candidate station of every event
assigned to a group is a member of that group's station set and of no other
group's station set. -/
theorem get_groups_station_disjoint (events : List SocEvent)
    (not_possible_stations : Finset ℕ)
    (hdisj : ∀ e ∈ events, Disjoint e.stations not_possible_stations) :
    List.Pairwise (fun g1 g2 => Disjoint g1.2 g2.2)
        (get_groups_from_events events not_possible_stations) ∧
      (∀ g ∈ get_groups_from_events events not_possible_stations,
        ∀ e ∈ g.1, e.stations ⊆ g.2) ∧
      ∀ (i j : ℕ) (hi : i < (get_groups_from_events events not_possible_stations).length)
        (hj : j < (get_groups_from_events events not_possible_stations).length),
        i ≠ j →
        ∀ e ∈ ((get_groups_from_events events not_possible_stations).get ⟨i, hi⟩).1,
          ∀ st ∈ e.stations,
            st ∈ ((get_groups_from_events events not_possible_stations).get ⟨i, hi⟩).2 ∧
              st ∉ ((get_groups_from_events events not_possible_stations).get ⟨j, hj⟩).2 := by
  set subs := join_all_subsets
    (events.map (fun e => e.stations \ not_possible_stations)) with hsubs
  have hspec := join_all_subsets_spec
    (events.map (fun e => e.stations \ not_possible_stations))
  have hdisjsubs : ∀ i j, i < subs.length → j < subs.length → i ≠ j →
      Disjoint (subs.getD i ∅) (subs.getD j ∅) := by
    intro i j hi hj hij
    rw [Finset.disjoint_iff_inter_eq_empty]
    exact find_intersecting_none hspec.1 i j hi hj hij
  have hcov : ∀ e ∈ events, ∃ u ∈ subs, e.stations ⊆ u := by
    intro e he
    have hmm : e.stations \ not_possible_stations ∈
        events.map (fun e => e.stations \ not_possible_stations) :=
      List.mem_map_of_mem _ he
    rcases hspec.2 _ hmm with ⟨u, hu, hsub⟩
    refine ⟨u, hu, ?_⟩
    rwa [Finset.sdiff_eq_self_of_disjoint (hdisj e he)] at hsub
  set G0 := (List.range subs.length).map (fun i =>
      (events.filter (fun e => assign_event subs e = some i), subs.getD i ∅)) with hG0
  have hperm : List.Perm (get_groups_from_events events not_possible_stations) G0 :=
    List.mergeSort_perm G0 _
  have hmemG : ∀ g ∈ G0, ∃ i, ∃ hi : i < subs.length,
      g = (events.filter (fun e => assign_event subs e = some i), subs.getD i ∅) := by
    intro g hg
    rcases List.mem_map.mp hg with ⟨i, hi, hgi⟩
    exact ⟨i, List.mem_range.mp hi, hgi.symm⟩
  have hkey : ∀ (i : ℕ), i < subs.length → ∀ e ∈ events,
      assign_event subs e = some i → e.stations ⊆ subs.getD i ∅ := by
    intro i hi e he hassign
    rcases assign_event_some hassign with ⟨hcard, hilt, hpick⟩
    rcases hcov e he with ⟨u, hu, hsub⟩
    rcases List.getElem?_of_mem hu with ⟨j, hju⟩
    rcases List.getElem?_eq_some_iff.mp hju with ⟨hjlt, hjval⟩
    have hject : subs.getD j ∅ = u := by
      rw [List.getD_eq_getElem _ _ hjlt, hjval]
    by_cases hij : i = j
    · rw [hij, hject]
      exact hsub
    · exfalso
      have hd := hdisjsubs i j hilt hjlt hij
      have hpick_in_u : event_pick e ∈ subs.getD j ∅ := by
        rw [hject]
        exact hsub (event_pick_mem hcard)
      exact Finset.disjoint_left.mp hd hpick hpick_in_u
  have hsubsetG : ∀ g ∈ get_groups_from_events events not_possible_stations,
      ∀ e ∈ g.1, e.stations ⊆ g.2 := by
    intro g hg e he
    rcases hmemG g (hperm.mem_iff.mp hg) with ⟨i, hi, rfl⟩
    rcases List.mem_filter.mp he with ⟨hev, hassign⟩
    exact hkey i hi e hev (by simpa using hassign)
  have hpairG0 : List.Pairwise (fun g1 g2 => Disjoint g1.2 g2.2) G0 := by
    rw [hG0, List.pairwise_map, List.pairwise_iff_getElem]
    intro i j hi hj hij
    simp only [List.length_range] at hi hj
    simp only [List.getElem_range]
    exact hdisjsubs i j hi hj (by omega)
  have hpairG : List.Pairwise (fun g1 g2 => Disjoint g1.2 g2.2)
      (get_groups_from_events events not_possible_stations) :=
    (hperm.pairwise_iff (fun h => h.symm)).mpr hpairG0
  refine ⟨hpairG, hsubsetG, ?_⟩
  intro i j hi hj hij e he st hst
  have hgi := List.get_mem (get_groups_from_events events not_possible_stations) i hi
  have h1 : st ∈ ((get_groups_from_events events not_possible_stations).get ⟨i, hi⟩).2 :=
    hsubsetG _ hgi e he hst
  have hpair := List.pairwise_iff_getElem.mp hpairG
  have hd : Disjoint ((get_groups_from_events events not_possible_stations).get ⟨i, hi⟩).2
      ((get_groups_from_events events not_possible_stations).get ⟨j, hj⟩).2 := by
    rw [List.get_eq_getElem, List.get_eq_getElem]
    rcases Nat.lt_or_ge i j with hlt | hge
    · exact hpair i j hi hj hlt
    · exact (hpair j i hj hi (by omega)).symm
  exact ⟨h1, Finset.disjoint_left.mp hd h1⟩

/-- C8 witness: the theorem applied to a concrete three-event instance with
two station-overlapping events ({1,2} and {2,3}) and an isolated one ({5}). -/
theorem C8_groups_witness :
    List.Pairwise (fun g1 g2 => Disjoint g1.2 g2.2)
      (get_groups_from_events [⟨{1, 2}, 100⟩, ⟨{2, 3}, 101⟩, ⟨{5}, 102⟩] ∅) :=
  (get_groups_station_disjoint [⟨{1, 2}, 100⟩, ⟨{2, 3}, 101⟩, ⟨{5}, 102⟩] ∅
    (by decide)).1

/-! ### C1, C7, C10 — the Fast SoC Kernel (optimizer.py lines 782-831) -/

/-- np.argmax: the first index attaining the maximum (numpy raises on an
empty array; we return 0). -/
def np_argmax : List ℚ → ℕ
  | [] => 0
  | [_] => 0
  | x :: y :: xs => if np_max (y :: xs) ≤ x then 0 else np_argmax (y :: xs) + 1

/-- np.hstack((np.diff(soc), -1)) of line 817: consecutive differences padded
with a final −1. -/
def np_diff_pad (soc : List ℚ) : List ℚ :=
  ((soc.zip soc.tail).map (fun p : ℚ × ℚ => p.2 - p.1)) ++ [-1]

/-- The product array of line 819, desc · (soc > 1) · (diff < 0), with
desc = np.arange(len(soc), 0, −1). -/
def loc_max_products (soc : List ℚ) : List ℚ :=
  (List.range soc.length).map (fun i =>
    ((soc.length - i : ℕ) : ℚ) * (if 1 < soc.getD i 0 then 1 else 0) *
      (if (np_diff_pad soc).getD i 0 < 0 then 1 else 0))

/-- Line 819: idc_loc_max = np.argmax(desc * (soc > 1) * (diff < 0)). -/
def idc_loc_max (soc : List ℚ) : ℕ := np_argmax (loc_max_products soc)

/-- The mask of line 819: an entry above 1 whose padded diff is negative
(a local maximum above 1). -/
def clip_mask (soc : List ℚ) (i : ℕ) : Prop :=
  1 < soc.getD i 0 ∧ (np_diff_pad soc).getD i 0 < 0

instance (soc : List ℚ) (i : ℕ) : Decidable (clip_mask soc i) := by
  unfold clip_mask
  infer_instance

/-- Lines 821-826: one iteration of the clipping loop: subtract
(soc[idc] − 1) from the suffix starting at idc and cap the entries above 1
before idc to 1. -/
def clip_step (soc : List ℚ) : List ℚ :=
  soc.mapIdx (fun j x =>
    if j < idc_loc_max soc then (if 1 < x then 1 else x)
    else x - (soc.getD (idc_loc_max soc) 0 - 1))

/-- Number of entries above 1, the termination measure of the clip loop. -/
def count_over_one (soc : List ℚ) : ℕ :=
  ((Finset.range soc.length).filter (fun j => 1 < soc.getD j 0)).card

theorem foldl_max_mem (xs : List ℚ) (x : ℚ) :
    xs.foldl max x = x ∨ xs.foldl max x ∈ xs := by
  induction xs generalizing x with
  | nil => exact Or.inl rfl
  | cons y ys ih =>
    rcases ih (max x y) with h | h
    · rcases max_cases x y with ⟨h1, _⟩ | ⟨h1, _⟩
      · exact Or.inl (by rw [List.foldl_cons, h, h1])
      · exact Or.inr (by rw [List.foldl_cons, h, h1]; simp)
    · exact Or.inr (by rw [List.foldl_cons]; simp [h])

theorem le_foldl_max (xs : List ℚ) (x : ℚ) :
    x ≤ xs.foldl max x ∧ ∀ a ∈ xs, a ≤ xs.foldl max x := by
  induction xs generalizing x with
  | nil => exact ⟨le_rfl, by simp⟩
  | cons y ys ih =>
    rcases ih (max x y) with ⟨h1, h2⟩
    refine ⟨le_trans (le_max_left x y) h1, ?_⟩
    intro a ha
    rcases List.mem_cons.mp ha with rfl | ha
    · exact le_trans (le_max_right x a) h1
    · exact h2 a ha

theorem np_max_mem (l : List ℚ) (h : l ≠ []) : np_max l ∈ l := by
  cases l with
  | nil => exact absurd rfl h
  | cons x xs =>
    unfold np_max
    rcases foldl_max_mem xs x with h1 | h1
    · simp [h1]
    · simp [h1]

theorem le_np_max (l : List ℚ) (a : ℚ) (ha : a ∈ l) : a ≤ np_max l := by
  cases l with
  | nil => simp at ha
  | cons x xs =>
    unfold np_max
    rcases List.mem_cons.mp ha with rfl | ha
    · exact (le_foldl_max xs a).1
    · exact (le_foldl_max xs x).2 a ha

theorem np_argmax_unique (l : List ℚ) : ∀ (i0 : ℕ), i0 < l.length →
    (∀ j, j < l.length → j ≠ i0 → l.getD j 0 < l.getD i0 0) → np_argmax l = i0 := by
  induction l with
  | nil => intro i0 h; simp at h
  | cons x xs ih =>
    intro i0 hi0 hmax
    cases xs with
    | nil =>
      simp only [List.length_cons, List.length_nil] at hi0
      unfold np_argmax
      omega
    | cons y t =>
      have hlen : (x :: y :: t).length = t.length + 2 := by simp
      have hlen2 : (y :: t).length = t.length + 1 := by simp
      rw [hlen] at hi0
      unfold np_argmax
      cases i0 with
      | zero =>
        have hm := np_max_mem (y :: t) (by simp)
        rcases List.getElem_of_mem hm with ⟨k, hk, hkval⟩
        have hk2 : k < t.length + 1 := by rw [hlen2] at hk; exact hk
        have hlt : (y :: t).getD k 0 < x := by
          have h3 := hmax (k + 1) (by rw [hlen]; omega) (by omega)
          simpa using h3
        have hle : np_max (y :: t) ≤ x := by
          rw [← hkval]
          rw [List.getD_eq_getElem _ 0 hk] at hlt
          exact le_of_lt hlt
        rw [if_pos hle]
      | succ n =>
        have hn : n < (y :: t).length := by rw [hlen2]; omega
        have hx : x < (y :: t).getD n 0 := by
          have h3 := hmax 0 (by rw [hlen]; omega) (by omega)
          simpa using h3
        have hle2 : (y :: t).getD n 0 ≤ np_max (y :: t) := by
          rw [List.getD_eq_getElem _ 0 hn]
          exact le_np_max _ _ (List.getElem_mem hn)
        rw [if_neg (by push_neg; exact lt_of_lt_of_le hx hle2)]
        have hres := ih n hn (fun j hj hne => by
          have h3 := hmax (j + 1) (by rw [hlen]; rw [hlen2] at hj; omega) (by omega)
          simpa using h3)
        omega

theorem loc_max_products_length (soc : List ℚ) :
    (loc_max_products soc).length = soc.length := by
  simp [loc_max_products]

theorem loc_max_products_getD (soc : List ℚ) (i : ℕ) (hi : i < soc.length) :
    (loc_max_products soc).getD i 0 =
      ((soc.length - i : ℕ) : ℚ) * (if 1 < soc.getD i 0 then 1 else 0) *
        (if (np_diff_pad soc).getD i 0 < 0 then 1 else 0) := by
  unfold loc_max_products
  rw [List.getD_eq_getElem _ 0 (by simpa using hi)]
  rw [List.getElem_map, List.getElem_range]

theorem idc_loc_max_eq_first_mask (soc : List ℚ) (i0 : ℕ) (hi0 : i0 < soc.length)
    (hmask : clip_mask soc i0) (hfirst : ∀ j, j < i0 → ¬ clip_mask soc j) :
    idc_loc_max soc = i0 := by
  unfold idc_loc_max
  apply np_argmax_unique
  · rw [loc_max_products_length]
    exact hi0
  · intro j hj hne
    rw [loc_max_products_length] at hj
    rw [loc_max_products_getD soc i0 hi0, loc_max_products_getD soc j hj]
    rcases hmask with ⟨hm1, hm2⟩
    rw [if_pos hm1, if_pos hm2]
    have hpos : (0 : ℚ) < ((soc.length - i0 : ℕ) : ℚ) := by
      have : 0 < soc.length - i0 := by omega
      exact_mod_cast this
    rcases Nat.lt_or_ge j i0 with hji | hji
    · have hnm := hfirst j hji
      unfold clip_mask at hnm
      push_neg at hnm
      by_cases h1 : 1 < soc.getD j 0
      · rw [if_pos h1, if_neg (by push_neg; exact hnm h1)]
        simpa using hpos
      · rw [if_neg h1]
        rw [mul_zero, zero_mul]
        simpa using hpos
    · have hji2 : i0 < j := by omega
      have hlt : ((soc.length - j : ℕ) : ℚ) < ((soc.length - i0 : ℕ) : ℚ) := by
        have : soc.length - j < soc.length - i0 := by omega
        exact_mod_cast this
      by_cases h1 : 1 < soc.getD j 0
      · by_cases h2 : (np_diff_pad soc).getD j 0 < 0
        · rw [if_pos h1, if_pos h2]
          simpa using hlt
        · rw [if_pos h1, if_neg h2]
          rw [mul_zero]
          simpa using hpos
      · rw [if_neg h1]
        rw [mul_zero, zero_mul]
        simpa using hpos

theorem np_diff_pad_getD_last (soc : List ℚ) (hne : soc ≠ []) :
    (np_diff_pad soc).getD (soc.length - 1) 0 = -1 := by
  unfold np_diff_pad
  have hzlen : ((soc.zip soc.tail).map (fun p : ℚ × ℚ => p.2 - p.1)).length = soc.length - 1 := by
    simp [List.length_zip, List.length_tail]
  have hlen : (((soc.zip soc.tail).map (fun p : ℚ × ℚ => p.2 - p.1)) ++ [-1]).length =
      soc.length := by
    rw [List.length_append, hzlen]
    have : 0 < soc.length := List.length_pos.mpr hne
    simp
    omega
  have hbound : soc.length - 1 < (((soc.zip soc.tail).map (fun p : ℚ × ℚ => p.2 - p.1)) ++
      [-1]).length := by
    rw [hlen]
    have : 0 < soc.length := List.length_pos.mpr hne
    omega
  rw [List.getD_eq_getElem _ 0 hbound]
  rw [List.getElem_append_right (by rw [hzlen])]
  simp [hzlen]

theorem np_diff_pad_getD_mid (soc : List ℚ) (j : ℕ) (hj : j + 1 < soc.length) :
    (np_diff_pad soc).getD j 0 = soc.getD (j + 1) 0 - soc.getD j 0 := by
  unfold np_diff_pad
  have hzlen : ((soc.zip soc.tail).map (fun p : ℚ × ℚ => p.2 - p.1)).length = soc.length - 1 := by
    simp [List.length_zip, List.length_tail]
  have hjz : j < ((soc.zip soc.tail).map (fun p : ℚ × ℚ => p.2 - p.1)).length := by
    rw [hzlen]; omega
  have hbound : j < (((soc.zip soc.tail).map (fun p : ℚ × ℚ => p.2 - p.1)) ++ [-1]).length := by
    rw [List.length_append]
    omega
  rw [List.getD_eq_getElem _ 0 hbound]
  rw [List.getElem_append_left hjz]
  rw [List.getElem_map]
  rw [List.getElem_zip]
  rw [List.getElem_tail]
  rw [List.getD_eq_getElem _ 0 (by omega : j + 1 < soc.length),
    List.getD_eq_getElem _ 0 (by omega : j < soc.length)]

theorem exists_first_mask (soc : List ℚ) (h : 1 < np_max soc) :
    ∃ i0, i0 < soc.length ∧ clip_mask soc i0 ∧ ∀ j, j < i0 → ¬ clip_mask soc j := by
  have hne : soc ≠ [] := by
    intro h0
    rw [h0] at h
    norm_num [np_max] at h
  have hm : np_max soc ∈ soc := np_max_mem _ hne
  rcases List.getElem_of_mem hm with ⟨k0, hk0, hk0val⟩
  have hover : ∃ j, j < soc.length ∧ 1 < soc.getD j 0 := by
    refine ⟨k0, hk0, ?_⟩
    rw [List.getD_eq_getElem _ 0 hk0, hk0val]
    exact h
  -- the greatest index above 1
  have hexists : ∃ j, j < soc.length ∧ 1 < soc.getD j 0 ∧
      ∀ k, j < k → k < soc.length → ¬ 1 < soc.getD k 0 := by
    rcases hover with ⟨j0, hj0, hj0v⟩
    by_contra hno
    push_neg at hno
    -- strong induction downward: from any witness, produce a larger one; contradiction
    have hstep : ∀ j, j < soc.length → 1 < soc.getD j 0 →
        ∃ j2, j < j2 ∧ j2 < soc.length ∧ 1 < soc.getD j2 0 := by
      intro j hj hjv
      rcases hno j hj hjv with ⟨k, hk1, hk2, hk3⟩
      exact ⟨k, hk1, hk2, hk3⟩
    -- iterate soc.length times to exceed the length
    have hiter : ∀ (m : ℕ), ∃ j, j < soc.length ∧ 1 < soc.getD j 0 ∧ m ≤ j + 1 := by
      intro m
      induction m with
      | zero => exact ⟨j0, hj0, hj0v, by omega⟩
      | succ mm ihm =>
        rcases ihm with ⟨j, hj, hjv, hjm⟩
        rcases hstep j hj hjv with ⟨j2, hj2a, hj2b, hj2v⟩
        exact ⟨j2, hj2b, hj2v, by omega⟩
    rcases hiter (soc.length + 1) with ⟨j, hj, _, hjm⟩
    omega
  rcases hexists with ⟨jmax, hjl, hjv, hjafter⟩
  have hjmask : clip_mask soc jmax := by
    refine ⟨hjv, ?_⟩
    by_cases hlast : jmax = soc.length - 1
    · rw [hlast, np_diff_pad_getD_last soc hne]
      norm_num
    · have hj1 : jmax + 1 < soc.length := by
        have : 0 < soc.length := List.length_pos.mpr hne
        omega
      rw [np_diff_pad_getD_mid soc jmax hj1]
      have hn1 := hjafter (jmax + 1) (by omega) hj1
      push_neg at hn1
      linarith
  -- take the least masked index
  have hex : ∃ i, clip_mask soc i := ⟨jmax, hjmask⟩
  refine ⟨Nat.find hex, ?_, Nat.find_spec hex, fun j hj => Nat.find_min hex hj⟩
  have : Nat.find hex ≤ jmax := Nat.find_min' hex hjmask
  omega

theorem clip_step_length (soc : List ℚ) : (clip_step soc).length = soc.length := by
  simp [clip_step]

theorem clip_step_getD (soc : List ℚ) (j : ℕ) (hj : j < soc.length) :
    (clip_step soc).getD j 0 =
      if j < idc_loc_max soc then (if 1 < soc.getD j 0 then 1 else soc.getD j 0)
      else soc.getD j 0 - (soc.getD (idc_loc_max soc) 0 - 1) := by
  unfold clip_step
  rw [List.getD_eq_getElem _ 0 (by simpa using hj)]
  rw [List.getElem_mapIdx]
  rw [List.getD_eq_getElem _ 0 hj]

theorem clip_step_count_lt (soc : List ℚ) (h : 1 < np_max soc) :
    count_over_one (clip_step soc) < count_over_one soc := by
  rcases exists_first_mask soc h with ⟨i0, hi0, hmask, hfirst⟩
  have hidc : idc_loc_max soc = i0 := idc_loc_max_eq_first_mask soc i0 hi0 hmask hfirst
  have hm1 : 1 < soc.getD i0 0 := hmask.1
  unfold count_over_one
  rw [clip_step_length]
  apply Finset.card_lt_card
  rw [Finset.ssubset_iff_of_subset]
  · refine ⟨i0, ?_, ?_⟩
    · rw [Finset.mem_filter]
      exact ⟨Finset.mem_range.mpr hi0, hm1⟩
    · rw [Finset.mem_filter]
      rintro ⟨hmem, hval⟩
      rw [clip_step_getD soc i0 hi0, hidc] at hval
      rw [if_neg (by omega)] at hval
      linarith
  · intro j hjmem
    rw [Finset.mem_filter] at hjmem ⊢
    rcases hjmem with ⟨hjr, hjv⟩
    have hj : j < soc.length := Finset.mem_range.mp hjr
    refine ⟨hjr, ?_⟩
    rw [clip_step_getD soc j hj, hidc] at hjv
    by_cases hlt : j < i0
    · rw [if_pos hlt] at hjv
      by_cases h1 : 1 < soc.getD j 0
      · rw [if_pos h1] at hjv
        norm_num at hjv
      · rw [if_neg h1] at hjv
        exact hjv
    · rw [if_neg hlt] at hjv
      linarith

/-- Lines 815-827: the clipping loop, iterated while max(soc) > 1; each pass
strictly reduces the number of entries above 1. -/
def clip_loop (soc : List ℚ) : List ℚ :=
  if h : 1 < np_max soc then clip_loop (clip_step soc) else soc
termination_by count_over_one soc
decreasing_by
  exact clip_step_count_lt _ h

theorem clip_loop_max_le (soc : List ℚ) : np_max (clip_loop soc) ≤ 1 := by
  induction soc using clip_loop.induct with
  | case1 s hs ih =>
    rw [clip_loop, dif_pos hs]
    exact ih
  | case2 s hs =>
    rw [clip_loop, dif_neg hs]
    exact le_of_not_lt hs

theorem clip_loop_length (soc : List ℚ) : (clip_loop soc).length = soc.length := by
  induction soc using clip_loop.induct with
  | case1 s hs ih =>
    rw [clip_loop, dif_pos hs]
    rw [ih, clip_step_length]
  | case2 s hs =>
    rw [clip_loop, dif_neg hs]

/-- Claim C7's selection rule: the RIGHTMOST index with soc > 1 and
next-diff < 0 (the last local maximum exceeding 1). -/
def last_loc_max_over_one (soc : List ℚ) : Option ℕ :=
  ((List.range soc.length).filter (fun i => decide (clip_mask soc i))).getLast?

/-- C7 counterexample: on the trace [2, 0, 3, 0] (the clipping loop is
entered, max = 3 > 1) the indices with soc > 1 and negative next-diff are
0 and 2; the claim's rightmost rule picks 2, but
np.argmax(np.arange(len,0,-1) · mask) weights earlier indices higher and the
code starts the subtraction at index 0, the LEFTMOST local maximum. -/
theorem C7_idc_loc_max_cex :
    1 < np_max [2, 0, 3, 0] ∧
      last_loc_max_over_one [2, 0, 3, 0] = some 2 ∧
      idc_loc_max [2, 0, 3, 0] = 0 ∧ (0 : ℕ) ≠ 2 := by
  refine ⟨by decide, ?_, ?_, by decide⟩
  · norm_num [last_loc_max_over_one, clip_mask, np_diff_pad, List.range_succ,
      List.filter]
  · have h0 : clip_mask [2, 0, 3, 0] 0 := by
      constructor <;> norm_num [np_diff_pad]
    exact idc_loc_max_eq_first_mask [2, 0, 3, 0] 0 (by norm_num) h0
      (fun j hj => absurd hj (Nat.not_lt_zero j))

/-- C7 amended: in every iteration of the clipping loop (entered while
max(soc) > 1), the index at which the subtraction of (max − 1) starts is the
LEFTMOST (first) index of the trace whose soc exceeds 1 and whose difference
to the next entry is negative, i.e. the first local maximum exceeding 1. -/
theorem idc_loc_max_eq_leftmost (soc : List ℚ) (h : 1 < np_max soc) :
    ∃ i0, idc_loc_max soc = i0 ∧ i0 < soc.length ∧ clip_mask soc i0 ∧
      ∀ j, j < i0 → ¬ clip_mask soc j := by
  rcases exists_first_mask soc h with ⟨i0, hi0, hmask, hfirst⟩
  exact ⟨i0, idc_loc_max_eq_first_mask soc i0 hi0 hmask hfirst, hi0, hmask, hfirst⟩

/-- C7 witness: the amended characterization applied to the trace
[2, 0, 3, 0]. -/
theorem C7_idc_loc_max_witness :
    ∃ i0, idc_loc_max [2, 0, 3, 0] = i0 ∧ i0 < ([2, 0, 3, 0] : List ℚ).length ∧
      clip_mask [2, 0, 3, 0] i0 ∧ ∀ j, j < i0 → ¬ clip_mask [2, 0, 3, 0] j :=
  idc_loc_max_eq_leftmost [2, 0, 3, 0] (by decide)

/-- A trip, reduced to the fields the Fast SoC Kernel reads: arrival station
(an atom), arrival time and departure time (minutes since the epoch). -/
structure Trip where
  arrival_name : ℕ
  arrival_time : ℚ
  departure_time : ℚ

/-- A rotation: its vehicle id (an atom) and its ordered trips. -/
structure Rot where
  vehicle_id : ℕ
  trips : List Trip

/-- The scenario fields get_index_by_time reads (lines 929-933): simulation
start time (minutes) and steps per hour. -/
structure Scenario where
  start_time : ℚ
  stepsPerHour : ℚ

/-- The module-level args fields the kernel reads: min_charging_time (line 69
sets it to 0) and default_buffer_time_opps, a window → buffer-minutes table
whose windows are parsed from "start-end" keys; a key that does not parse
(such as the "else" installed at line 70) is modelled as none. -/
structure Args where
  min_charging_time : ℚ
  default_buffer_time_opps : List (Option (ℚ × ℚ) × ℚ)

/-- optimizer.py lines 929-935 (get_index_by_time): floor division of the
offset from the scenario start by the step length of 60/stepsPerHour
minutes. -/
def get_index_by_time (search_time : ℚ) (this_scen : Scenario) : ℤ :=
  ⌊(search_time - this_scen.start_time) / (60 / this_scen.stepsPerHour)⌋

/-- The .hour of a datetime modelled as minutes on a continuous axis. -/
def time_hour (t : ℚ) : ℤ := ⌊t / 60⌋ % 24

/-- optimizer.py lines 1150-1157: scan the buffer windows in order; a window
whose key fails to parse (none) raises ValueError, caught to return 0; a
window containing the hour returns its buffer minutes.  When the table is
exhausted the source falls off the loop and returns Python None, which would
fault in the caller; with the module-level table of line 70 (only the
unparsable "else" key) that branch is unreachable, and it is modelled as 0. -/
def buffer_window_scan (hour : ℤ) : List (Option (ℚ × ℚ) × ℚ) → ℚ
  | [] => 0
  | (none, _) :: _ => 0
  | (some (st, en), buffer_time) :: rest =>
    if (hour : ℚ) < en ∧ st ≤ (hour : ℚ) then buffer_time
    else buffer_window_scan hour rest

/-- optimizer.py lines 1149-1157 (get_buffer_time_old). -/
def get_buffer_time_old (search_time : ℚ) (args : Args) : ℚ :=
  buffer_window_scan (time_hour search_time) args.default_buffer_time_opps

/-- optimizer.py lines 1165-1166 (get_buffer_time). -/
def get_buffer_time (trip : Trip) (args : Args) : ℚ :=
  get_buffer_time_old trip.arrival_time args

/-- optimizer.py lines 901-913 (get_charging_time): standing time between
trip1's arrival and trip2's departure in minutes, zero when below
min_charging_time, reduced by a positive buffer time, floored at 0 (the
delay variable is the constant 0). -/
def get_charging_time (trip1 trip2 : Trip) (args : Args) : ℚ :=
  if args.min_charging_time > trip2.departure_time - trip1.arrival_time then 0
  else
    max 0 (if 0 < get_buffer_time trip1 args then
      trip2.departure_time - trip1.arrival_time - get_buffer_time trip1 args
    else trip2.departure_time - trip1.arrival_time)

/-- np.linspace(0, d_soc, d) at position k (the ramp of line 810);
np.linspace with d ≤ 1 samples contributes 0. -/
def linspace_val (d_soc : ℚ) (d k : ℕ) : ℚ :=
  if d ≤ 1 then 0 else d_soc * k / ((d - 1 : ℕ) : ℚ)

/-- Lines 806-810, elementwise: save the charging window soc[start:start+d],
add d_soc to everything from start on, restore the window, then add the
linspace ramp to it.  Net effect: entries before start keep their value, the
window gets the ramp, entries from start+d on get the full d_soc. -/
def apply_lift (soc : List ℚ) (start d : ℕ) (d_soc : ℚ) : List ℚ :=
  soc.mapIdx (fun j x =>
    if j < start then x
    else if j < start + d then x + linspace_val d_soc d (j - start)
    else x + d_soc)

/-- Lines 799-827, the per-trip body of timeseries_calc for a trip arriving
at an electrified station; next_trip is rot.trips[i+1] of line 801 (none on
the last trip, where the IndexError handler sets the standing time to 0).
get_delta_soc's none case is an uncaught IndexError in the source (no trace
is returned at all); it is modelled as a lift of 0, which is immaterial to
the claims proved here since the clipping loop bounds the result for every
d_soc. -/
def process_trip (soc_over_time_curve : List (ℚ × ℚ)) (eval_scen : Scenario)
    (args : Args) (soc : List ℚ) (trip : Trip) (next_trip : Option Trip) :
    List ℚ :=
  let idx := get_index_by_time trip.arrival_time eval_scen
  let standing_time_min := match next_trip with
    | some trip2 => get_charging_time trip trip2 args
    | none => 0
  let d_soc := (get_delta_soc soc_over_time_curve (soc.getD idx.toNat 0)
    standing_time_min).getD 0
  let buffer_idx := int_trunc (get_buffer_time trip args)
  let delta_idx := (int_trunc standing_time_min).toNat + 1
  clip_loop (apply_lift soc (idx + buffer_idx).toNat delta_idx d_soc)

/-- Lines 794-828: iterate the per-trip update over the rotation's trips,
skipping (line 797) every trip whose arrival station is not electrified. -/
def process_trips (soc_over_time_curve : List (ℚ × ℚ)) (eval_scen : Scenario)
    (args : Args) (ele_stations : Finset ℕ) : List Trip → List ℚ → List ℚ
  | [], soc => soc
  | trip :: rest, soc =>
    if trip.arrival_name ∈ ele_stations then
      process_trips soc_over_time_curve eval_scen args ele_stations rest
        (process_trip soc_over_time_curve eval_scen args soc trip rest.head?)
    else
      process_trips soc_over_time_curve eval_scen args ele_stations rest soc

/-- optimizer.py lines 782-831 (timeseries_calc): recompute the SoC traces
of the given rotations with station electrified in addition to
ele_station_set.  The source selects each rotation's charging table by
parsing v_type and ch_type out of rot.vehicle_id and indexing
soc_charge_curve_dict (lines 790-792); vehicle ids being opaque atoms here,
that lookup is modelled as the function curve_of_vehicle. -/
def timeseries_calc (station : ℕ) (rotations : List Rot)
    (soc_dict : ℕ → List ℚ) (eval_scen : Scenario) (ele_station_set : Finset ℕ)
    (curve_of_vehicle : ℕ → List (ℚ × ℚ)) (args : Args) : ℕ → List ℚ :=
  rotations.foldl (fun soc_d rot =>
    Function.update soc_d rot.vehicle_id
      (process_trips (curve_of_vehicle rot.vehicle_id) eval_scen args
        (insert station ele_station_set) rot.trips (soc_d rot.vehicle_id)))
    soc_dict

/-- The claim's "all touched indices in range", per trip: whenever the trip
arrives at an electrified station, the lifted window starts at a nonnegative
index and ends within the trace (idx + buffer_idx ≥ 0 and
idx + buffer_idx + delta_idx ≤ len, in the source's names). -/
def trips_in_range (eval_scen : Scenario) (args : Args)
    (ele_stations : Finset ℕ) (len : ℕ) : List Trip → Prop
  | [] => True
  | trip :: rest =>
    (trip.arrival_name ∈ ele_stations →
      0 ≤ get_index_by_time trip.arrival_time eval_scen +
          int_trunc (get_buffer_time trip args) ∧
        (get_index_by_time trip.arrival_time eval_scen +
            int_trunc (get_buffer_time trip args)).toNat +
          ((int_trunc (match rest.head? with
            | some trip2 => get_charging_time trip trip2 args
            | none => 0)).toNat + 1) ≤ len) ∧
    trips_in_range eval_scen args ele_stations len rest

theorem process_trip_max_le (c : List (ℚ × ℚ)) (s : Scenario) (a : Args)
    (soc : List ℚ) (t : Trip) (nt : Option Trip) :
    np_max (process_trip c s a soc t nt) ≤ 1 := by
  unfold process_trip
  exact clip_loop_max_le _

theorem process_trips_max_le_of_le (c : List (ℚ × ℚ)) (s : Scenario) (a : Args)
    (ele : Finset ℕ) (trips : List Trip) :
    ∀ (soc : List ℚ), np_max soc ≤ 1 →
      np_max (process_trips c s a ele trips soc) ≤ 1 := by
  induction trips with
  | nil =>
    intro soc h
    simpa [process_trips] using h
  | cons trip rest ih =>
    intro soc h
    simp only [process_trips]
    by_cases ht : trip.arrival_name ∈ ele
    · rw [if_pos ht]
      exact ih _ (process_trip_max_le c s a soc trip rest.head?)
    · rw [if_neg ht]
      exact ih soc h

theorem process_trips_max_le_of_app (c : List (ℚ × ℚ)) (s : Scenario)
    (a : Args) (ele : Finset ℕ) (trips : List Trip) :
    ∀ (soc : List ℚ), (∃ t ∈ trips, t.arrival_name ∈ ele) →
      np_max (process_trips c s a ele trips soc) ≤ 1 := by
  induction trips with
  | nil =>
    intro soc h
    simp at h
  | cons trip rest ih =>
    intro soc h
    simp only [process_trips]
    by_cases ht : trip.arrival_name ∈ ele
    · rw [if_pos ht]
      exact process_trips_max_le_of_le c s a ele rest _
        (process_trip_max_le c s a soc trip rest.head?)
    · rw [if_neg ht]
      rcases h with ⟨t, hmem, hele⟩
      rcases List.mem_cons.mp hmem with heq | hmem2
      · exact absurd (heq ▸ hele) ht
      · exact ih soc ⟨t, hmem2, hele⟩

theorem tsc_fold_preserve (c : ℕ → List (ℚ × ℚ)) (s : Scenario) (a : Args)
    (ele : Finset ℕ) (v : ℕ) (rots : List Rot) :
    ∀ (d : ℕ → List ℚ), np_max (d v) ≤ 1 →
      np_max ((rots.foldl (fun (soc_d : ℕ → List ℚ) (rot : Rot) =>
        Function.update soc_d rot.vehicle_id
          (process_trips (c rot.vehicle_id) s a ele rot.trips
            (soc_d rot.vehicle_id))) d) v) ≤ 1 := by
  induction rots with
  | nil =>
    intro d h
    simpa using h
  | cons r rest ih =>
    intro d h
    rw [List.foldl_cons]
    apply ih
    rw [Function.update_apply]
    by_cases hv : v = r.vehicle_id
    · rw [if_pos hv]
      exact process_trips_max_le_of_le _ s a ele r.trips _ (hv ▸ h)
    · rw [if_neg hv]
      exact h

theorem tsc_fold_hit (c : ℕ → List (ℚ × ℚ)) (s : Scenario) (a : Args)
    (ele : Finset ℕ) (v : ℕ) (rots : List Rot) :
    ∀ (d : ℕ → List ℚ),
      (∃ rot ∈ rots, rot.vehicle_id = v ∧
        ∃ t ∈ rot.trips, t.arrival_name ∈ ele) →
      np_max ((rots.foldl (fun (soc_d : ℕ → List ℚ) (rot : Rot) =>
        Function.update soc_d rot.vehicle_id
          (process_trips (c rot.vehicle_id) s a ele rot.trips
            (soc_d rot.vehicle_id))) d) v) ≤ 1 := by
  induction rots with
  | nil =>
    intro d h
    simp at h
  | cons r rest ih =>
    intro d h
    rw [List.foldl_cons]
    rcases h with ⟨rot, hmem, hvid, happ⟩
    rcases List.mem_cons.mp hmem with heq | hmem2
    · subst heq
      apply tsc_fold_preserve
      rw [Function.update_apply, if_pos hvid.symm]
      exact process_trips_max_le_of_app _ s a ele rot.trips _ happ
    · exact ih _ ⟨rot, hmem2, hvid, happ⟩

/-- C1: every vehicle SoC trace that the Fast SoC Kernel updates — the
vehicle has a rotation with at least one trip arriving at a station of the
electrified set, all touched indices in range — satisfies
max(soc) ≤ 1 + ε in the returned dictionary (indeed max(soc) ≤ 1: the
clipping loop of lines 815-827 runs after every applicable trip and leaves
no entry above 1, and later trips preserve the bound).  NaN cannot arise in
the exact rational model: every kernel operation is total on ℚ. -/
theorem timeseries_calc_max_le (station : ℕ) (rotations : List Rot)
    (soc_dict : ℕ → List ℚ) (eval_scen : Scenario) (ele_station_set : Finset ℕ)
    (curve_of_vehicle : ℕ → List (ℚ × ℚ)) (args : Args) (v : ℕ) (eps : ℚ)
    (happ : ∃ rot ∈ rotations, rot.vehicle_id = v ∧
      ∃ t ∈ rot.trips, t.arrival_name ∈ insert station ele_station_set)
    (hrange : ∀ rot ∈ rotations, rot.vehicle_id = v →
      trips_in_range eval_scen args (insert station ele_station_set)
        (soc_dict v).length rot.trips)
    (heps : 0 ≤ eps) :
    np_max (timeseries_calc station rotations soc_dict eval_scen
      ele_station_set curve_of_vehicle args v) ≤ 1 + eps := by
  have h1 : np_max (timeseries_calc station rotations soc_dict eval_scen
      ele_station_set curve_of_vehicle args v) ≤ 1 := by
    unfold timeseries_calc
    exact tsc_fold_hit curve_of_vehicle eval_scen args
      (insert station ele_station_set) v rotations soc_dict happ
  linarith

/-- C1 witness: a ten-step trace of a vehicle whose single rotation has one
trip arriving at the electrified station. -/
theorem C1_timeseries_witness :
    (∃ rot ∈ [Rot.mk 3 [Trip.mk 7 5 9]], rot.vehicle_id = 3 ∧
      ∃ t ∈ rot.trips, t.arrival_name ∈ insert 7 (∅ : Finset ℕ)) ∧
    (∀ rot ∈ [Rot.mk 3 [Trip.mk 7 5 9]], rot.vehicle_id = 3 →
      trips_in_range (Scenario.mk 0 60) (Args.mk 0 [(none, 0)])
        (insert 7 (∅ : Finset ℕ))
        ((fun _ : ℕ => List.replicate 10 (0 : ℚ)) 3).length rot.trips) ∧
    (0 : ℚ) ≤ 0 ∧
    np_max (timeseries_calc 7 [Rot.mk 3 [Trip.mk 7 5 9]]
      (fun _ : ℕ => List.replicate 10 (0 : ℚ)) (Scenario.mk 0 60) ∅
      (fun _ : ℕ => [((0 : ℚ), (0 : ℚ)), (600, 1)]) (Args.mk 0 [(none, 0)])
      3) ≤ 1 + 0 := by
  have happ : ∃ rot ∈ [Rot.mk 3 [Trip.mk 7 5 9]], rot.vehicle_id = 3 ∧
      ∃ t ∈ rot.trips, t.arrival_name ∈ insert 7 (∅ : Finset ℕ) :=
    ⟨Rot.mk 3 [Trip.mk 7 5 9], by simp, rfl,
      Trip.mk 7 5 9, by simp, by decide⟩
  have hrange : ∀ rot ∈ [Rot.mk 3 [Trip.mk 7 5 9]], rot.vehicle_id = 3 →
      trips_in_range (Scenario.mk 0 60) (Args.mk 0 [(none, 0)])
        (insert 7 (∅ : Finset ℕ))
        ((fun _ : ℕ => List.replicate 10 (0 : ℚ)) 3).length rot.trips := by
    intro rot hmem hv
    simp only [List.mem_singleton] at hmem
    subst hmem
    refine ⟨fun _ => ⟨?_, ?_⟩, trivial⟩
    · norm_num [get_index_by_time, get_buffer_time, get_buffer_time_old,
        buffer_window_scan, time_hour, int_trunc]
    · norm_num [get_index_by_time, get_buffer_time, get_buffer_time_old,
        buffer_window_scan, time_hour, int_trunc]
      decide
  exact ⟨happ, hrange, le_refl 0,
    timeseries_calc_max_le 7 [Rot.mk 3 [Trip.mk 7 5 9]]
      (fun _ : ℕ => List.replicate 10 (0 : ℚ)) (Scenario.mk 0 60) ∅
      (fun _ : ℕ => [((0 : ℚ), (0 : ℚ)), (600, 1)]) (Args.mk 0 [(none, 0)])
      3 0 happ hrange (le_refl 0)⟩

theorem process_trips_id (c : List (ℚ × ℚ)) (s : Scenario) (a : Args)
    (ele : Finset ℕ) (trips : List Trip) :
    ∀ (soc : List ℚ), (∀ t ∈ trips, t.arrival_name ∉ ele) →
      process_trips c s a ele trips soc = soc := by
  induction trips with
  | nil =>
    intro soc _
    simp [process_trips]
  | cons trip rest ih =>
    intro soc h
    simp only [process_trips]
    rw [if_neg (h trip (List.mem_cons_self trip rest))]
    exact ih soc (fun t ht => h t (List.mem_cons_of_mem trip ht))

theorem tsc_fold_frame (c : ℕ → List (ℚ × ℚ)) (s : Scenario) (a : Args)
    (ele : Finset ℕ) (v : ℕ) (rots : List Rot) :
    ∀ (d : ℕ → List ℚ),
      (∀ rot ∈ rots, rot.vehicle_id = v →
        ∀ t ∈ rot.trips, t.arrival_name ∉ ele) →
      (rots.foldl (fun (soc_d : ℕ → List ℚ) (rot : Rot) =>
        Function.update soc_d rot.vehicle_id
          (process_trips (c rot.vehicle_id) s a ele rot.trips
            (soc_d rot.vehicle_id))) d) v = d v := by
  induction rots with
  | nil =>
    intro d _
    simp
  | cons r rest ih =>
    intro d h
    rw [List.foldl_cons]
    rw [ih _ (fun rot hmem => h rot (List.mem_cons_of_mem r hmem))]
    rw [Function.update_apply]
    by_cases hv : v = r.vehicle_id
    · rw [if_pos hv]
      rw [process_trips_id _ s a ele r.trips _
        (h r (List.mem_cons_self r rest) hv.symm)]
      rw [hv]
    · rw [if_neg hv]

/-- C10: in the dictionary returned by timeseries_calc, a vehicle none of
whose rotations contains a trip arriving at a station of
ele_station_set ∪ {station} keeps exactly its input trace: the per-trip
body is guarded by the electrified-arrival test of line 797, so such a
vehicle's trace is rebound unchanged at line 829. -/
theorem timeseries_calc_frame (station : ℕ) (rotations : List Rot)
    (soc_dict : ℕ → List ℚ) (eval_scen : Scenario) (ele_station_set : Finset ℕ)
    (curve_of_vehicle : ℕ → List (ℚ × ℚ)) (args : Args) (v : ℕ)
    (hnone : ∀ rot ∈ rotations, rot.vehicle_id = v →
      ∀ t ∈ rot.trips, t.arrival_name ∉ insert station ele_station_set) :
    timeseries_calc station rotations soc_dict eval_scen ele_station_set
      curve_of_vehicle args v = soc_dict v := by
  unfold timeseries_calc
  exact tsc_fold_frame curve_of_vehicle eval_scen args
    (insert station ele_station_set) v rotations soc_dict hnone

/-- C10 witness: a vehicle whose single rotation's only trip arrives at a
non-electrified station keeps its input trace [1/2, 1/4]. -/
theorem C10_timeseries_witness :
    (∀ rot ∈ [Rot.mk 3 [Trip.mk 8 5 9]], rot.vehicle_id = 3 →
      ∀ t ∈ rot.trips, t.arrival_name ∉ insert 7 (∅ : Finset ℕ)) ∧
    timeseries_calc 7 [Rot.mk 3 [Trip.mk 8 5 9]]
      (fun _ : ℕ => [(1 : ℚ)/2, 1/4]) (Scenario.mk 0 60) ∅
      (fun _ : ℕ => [((0 : ℚ), (0 : ℚ)), (600, 1)]) (Args.mk 0 [(none, 0)])
      3 = (fun _ : ℕ => [(1 : ℚ)/2, 1/4]) 3 := by
  have hnone : ∀ rot ∈ [Rot.mk 3 [Trip.mk 8 5 9]], rot.vehicle_id = 3 →
      ∀ t ∈ rot.trips, t.arrival_name ∉ insert 7 (∅ : Finset ℕ) := by
    intro rot hmem hv t ht
    simp only [List.mem_singleton] at hmem
    subst hmem
    simp only [List.mem_singleton] at ht
    subst ht
    decide
  exact ⟨hnone, timeseries_calc_frame 7 [Rot.mk 3 [Trip.mk 8 5 9]]
    (fun _ : ℕ => [(1 : ℚ)/2, 1/4]) (Scenario.mk 0 60) ∅
    (fun _ : ℕ => [((0 : ℚ), (0 : ℚ)), (600, 1)]) (Args.mk 0 [(none, 0)])
    3 hnone⟩
